import Mathlib

/-!
# Mithras-Contracts: verification of the off-chain core against its specification

This file shallowly embeds the parts of the repository the frozen claims talk
about and settles each claim:

* the append-only Merkle tree mirror (`package test`, the `Tree` type with
  `NewTree`, `addLeaf`, `createMerkleProof`, `verify`, `getRoot`);
* the zk-circuit constraint systems (`circuits` package: the deposit circuit
  and the withdrawal circuits) as satisfaction predicates over the BN254
  scalar field;
* the transaction composer and coordinator flow of `test/testing.go`
  (`SendDeposit`, `SendWithdrawal`), with the ledger round-trips abstracted as
  an oracle of responses.

A central fidelity point of this embedding: in the Go source, `NewTree` stores
the *same* slice into both the `subTree` and the `zeroHashes` fields of `Tree`
(`subTree: c.ZeroHashes, zeroHashes: c.ZeroHashes`), so the two fields alias one
backing array for the whole life of the tree — no statement ever rebinds either
slice header.  Consequently, in `addLeaf`, the write `t.subTree[i] = currentHash`
is visible through the subsequent read `t.zeroHashes[i]`.  We model the single
shared backing array as the field `subTree`; every Go read of `t.zeroHashes[i]`
is therefore a read of that same array.
-/

set_option linter.unusedVariables false
set_option linter.unusedSectionVars false

namespace Mithras

/-! ## Go `uint64` arithmetic

`fromNote.Amount - withdrawalAmount - fee` in `SendWithdrawal` is computed on
Go `uint64` values, which wrap modulo `2^64`.  We represent a `uint64` as a
`Nat` smaller than `2^64` and make the wrap explicit. -/

/-- Go `uint64` subtraction `a - b`: wraps modulo `2 ^ 64`. -/
def goSub64 (a b : Nat) : Nat :=
  (a + (2 ^ 64 - b % 2 ^ 64)) % 2 ^ 64

/-! ## The Merkle tree mirror (`package test`, `Tree`)

The Go hash function `config.HashFunc = func(...[]byte) []byte` is variadic; we
model byte strings by an arbitrary type `B` and the hash by `List B → B`.  The
whole tree development is parameterised by that function. -/

/-- `TreeConfig` of `test/testing.go` (the `HashFunc` field is the section
parameter `hashFunc` below). -/
structure TreeConfig (B : Type) where
  Depth : Nat
  ZeroValue : B
  ZeroHashes : List B

/-- The Go `Tree`.  `subTree` models the backing array that the Go fields
`subTree` *and* `zeroHashes` both point at (see the module header: `NewTree`
aliases them).  Reads of `t.zeroHashes[i]` in the source are reads of this
array. -/
structure Tree (B : Type) where
  subTree : List B
  leafHashes : List B
  depth : Nat

section TreeModel

variable {B : Type} [DecidableEq B] [Inhabited B]

/-- A Go slice read `l[i]`; in-range everywhere we evaluate it (out-of-range
Go reads are runtime panics and are modelled explicitly where a claim is about
them, see `createMerkleProof`). -/
def goGet (l : List B) (i : Nat) : B := l.getD i default

variable (hashFunc : List B → B)

/-- `config.GenerateZeroHashes`: `subtree[0] = Hash(zeroValue)`,
`subtree[i] = Hash(subtree[i-1], subtree[i-1])`. -/
def zeroHashAt (zeroValue : B) : Nat → B
  | 0 => hashFunc [zeroValue]
  | i + 1 => hashFunc [zeroHashAt zeroValue i, zeroHashAt zeroValue i]

/-- `config.GenerateZeroHashes depth zeroValue` returns the `depth+1` canonical
empty-subtree hashes. -/
def GenerateZeroHashes (depth : Nat) (zeroValue : B) : List B :=
  (List.range (depth + 1)).map (zeroHashAt hashFunc zeroValue)

/-- `NewTree` (`src/main.go:101`).  In Go both `subTree` and `zeroHashes`
receive the slice `c.ZeroHashes`; the shared backing array is the `subTree`
field here. -/
def NewTree (c : TreeConfig B) : Tree B :=
  { subTree := c.ZeroHashes
    leafHashes := []
    depth := c.Depth }

/-- The loop of `addLeaf` (`src/main.go:195`), walking levels `i, i+1, ...` for
`fuel` iterations.  In the even branch the Go code first writes
`t.subTree[i] = currentHash` and then reads `right = t.zeroHashes[i]`; because
of the `NewTree` aliasing that read returns `currentHash` itself. -/
def addLeafLoop : (fuel : Nat) → (i : Nat) → (index : Nat) → (cur : B) →
    (s : List B) → List B × B
  | 0, _, _, cur, s => (s, cur)
  | fuel + 1, i, index, cur, s =>
      if index % 2 = 0 then
        let s1 := s.set i cur
        let left := cur
        let right := goGet s1 i
        addLeafLoop fuel (i + 1) (index / 2) (hashFunc [left, right]) s1
      else
        let left := goGet s i
        let right := cur
        addLeafLoop fuel (i + 1) (index / 2) (hashFunc [left, right]) s

/-- `addLeaf` (`src/main.go:189-209`): append the leaf to `leafHashes`, walk
the `depth` levels updating the frontier, store the top value at
`subTree[depth]`, and return the new tree together with the returned index
`len(t.leafHashes) - 1`. -/
def addLeaf (t : Tree B) (leaf : B) : Tree B × Nat :=
  let leafHashes := t.leafHashes ++ [leaf]
  let index := leafHashes.length - 1
  let r := addLeafLoop hashFunc t.depth 0 index leaf t.subTree
  ({ subTree := r.1.set t.depth r.2
     leafHashes := leafHashes
     depth := t.depth }, index)

/-- `getRoot` (`src/main.go:184-187`): `t.subTree[len(t.subTree)-1]`. -/
def getRoot (t : Tree B) : B :=
  goGet t.subTree (t.subTree.length - 1)

/-- Inserting a list of leaves left to right with `addLeaf`. -/
def insertAll (t : Tree B) (leaves : List B) : Tree B :=
  leaves.foldl (fun t c => (addLeaf hashFunc t c).1) t

/-- `nextLevel[j/2] = t.hashFunc(currentLevel[j], currentLevel[j+1])` for
`j = 0, 2, 4, ...` — hashing adjacent pairs.  The loops that run this in the
Go source only ever run it on even-length levels (they pad first). -/
def pairHash : List B → List B
  | a :: b :: rest => hashFunc [a, b] :: pairHash rest
  | _ => []

/-- Errors a Go function can produce: a returned `error` value, or a runtime
panic (out-of-range slice index). -/
inductive GoErr where
  | goError (msg : String)
  | runtimeFault
  deriving DecidableEq, Repr

/-- The level/proof loop of `createMerkleProof` (`src/main.go:140-157`): at
level `i`, append the sibling of position `index` in `currentLevel` to the
proof, then build the next level by pairwise hashing, padding an odd-length
next level with `t.subTree[i+1]`. -/
def proofLoop (subTree : List B) :
    (fuel : Nat) → (i : Nat) → (index : Nat) → (currentLevel : List B) →
    (proof : List B) → List B
  | 0, _, _, _, proof => proof
  | fuel + 1, i, index, currentLevel, proof =>
      let sibling :=
        if index % 2 = 0 then goGet currentLevel (index + 1)
        else goGet currentLevel (index - 1)
      let proof := proof ++ [sibling]
      let nextLevel := pairHash hashFunc currentLevel
      let nextLevel :=
        if nextLevel.length % 2 = 1 then nextLevel ++ [goGet subTree (i + 1)]
        else nextLevel
      proofLoop subTree fuel (i + 1) (index / 2) nextLevel proof

/-- `createMerkleProof` (`src/main.go:111-160`).  The Go function evaluates
`t.leafHashes[index]` *inside* the first `if` condition, so an out-of-range
`index` is a runtime panic (`runtimeFault`) before the explicit
`index >= len(t.leafHashes)` bounds check is ever reached. -/
def createMerkleProof (t : Tree B) (leafValue : B) (index : Nat) :
    Except GoErr (List B) :=
  if h : index < t.leafHashes.length then
    let leafHash := hashFunc [leafValue]
    if goGet t.leafHashes index ≠ leafHash then
      .error (.goError "leaf value does not map to hash at index")
    else if t.leafHashes.length ≤ index then
      .error (.goError "index out of range")
    else
      let currentLevel := t.leafHashes
      let currentLevel :=
        if currentLevel.length % 2 = 1 then currentLevel ++ [goGet t.subTree 0]
        else currentLevel
      .ok (proofLoop hashFunc t.subTree t.depth 0 index currentLevel [leafValue])
  else
    .error .runtimeFault

/-- The fold of `verify` (`src/main.go:172-179`): combine the running hash with
each sibling, left or right according to the low bit of the index. -/
def verifyFold (cur : B) (leafIndex : Nat) : List B → B
  | [] => cur
  | p :: ps =>
      let next :=
        if leafIndex % 2 = 0 then hashFunc [cur, p] else hashFunc [p, cur]
      verifyFold next (leafIndex / 2) ps

/-- `verify` (`src/main.go:162-182`): false on an empty path; otherwise hash
`path[0]`, fold in the siblings, and compare with `root`. -/
def verify (t : Tree B) (leafIndex : Nat) (path : List B) (root : B) : Bool :=
  match path with
  | [] => false
  | p0 :: rest => decide (verifyFold hashFunc (hashFunc [p0]) leafIndex rest = root)

/-! ### Mathematical view of the aliased tree

Because of the `subTree`/`zeroHashes` aliasing, `addLeaf`'s even branch hashes
the current node with *itself* instead of with a canonical zero hash.  The
resulting structure is the level fold that duplicates the last node of every
odd-width level.  `dupPad`/`levelAt` below define that structure; the theorems
relate the code to it. -/

/-- Pad a level to even width by duplicating its last element (no-op on even
widths, including the empty level). -/
def dupPad (l : List B) : List B :=
  if l.length % 2 = 1 then l ++ [l.getLastD default] else l

/-- One level up in the duplicate-last-node Merkle structure. -/
def dupLevelUp (l : List B) : List B := pairHash hashFunc (dupPad l)

/-- Level `k` of the duplicate-last-node Merkle structure over the leaves. -/
def levelAt : Nat → List B → List B
  | 0, l => l
  | k + 1, l => dupLevelUp hashFunc (levelAt k l)

/-- The root the aliased code actually maintains: the top of the
duplicate-last-node level structure. -/
def dupRoot (depth : Nat) (leaves : List B) : B :=
  goGet (levelAt hashFunc depth leaves) 0

/-- The invariant of the aliased frontier after inserting the non-empty leaf
list `L`: writing `m = L.length - 1` for the index of the last inserted leaf,
every level `k < depth` of `subTree` holds the node at the even-aligned
position `2·((m / 2^k) / 2)` of level `k` of the duplicate-last-node structure
over `L`, and the top slot holds the node at position `m / 2^depth`. -/
def TreeInv (d : Nat) (L s : List B) : Prop :=
  s.length = d + 1 ∧
  (∀ k, k < d →
    goGet s k = goGet (levelAt hashFunc k L) (2 * ((L.length - 1) / 2 ^ k / 2))) ∧
  goGet s d = goGet (levelAt hashFunc d L) ((L.length - 1) / 2 ^ d)

/-! ### The root the specification prescribes

Modelled from the spec's words, for comparison with the code (claim C1):
"`frontier[D]` equals a full Merkle root computed by hashing `leafHashes`
padded with `zeroHashes[0]` up to `2^D` leaves", bottom-up with
`H(left, right)` at every level. -/

/-- Iterated pairwise hashing of a full (power-of-two width) level stack. -/
def fullLevels : Nat → List B → List B
  | 0, l => l
  | k + 1, l => pairHash hashFunc (fullLevels k l)

/-- Modelled from the spec: the full Merkle root of `leaves` padded on the
right with `zeroLeaf` (`= zeroHashes[0] = H(0)`) up to `2 ^ depth` leaves,
hashed bottom-up with `H(left, right)` at every level. -/
def specPaddedRoot (depth : Nat) (zeroLeaf : B) (leaves : List B) : B :=
  goGet (fullLevels hashFunc depth
    (leaves ++ List.replicate (2 ^ depth - leaves.length) zeroLeaf)) 0

end TreeModel

/-! ### A free hash algebra to evaluate the tree model concretely

The Go code only ever applies `hashFunc` to 1, 2 or 5 arguments (leaf hashing
and Merkle nodes in the tree; nullifiers, shared secrets and commitments in the
note scheme).  `HashVal` is the free algebra on those arities over raw byte
strings, so distinct hash applications are distinct values and equalities are
decidable — exactly what is needed to exhibit concrete counterexamples without
committing to MiMC internals. -/

inductive HashVal where
  | raw (n : Nat)
  | h1 (a : HashVal)
  | h2 (a b : HashVal)
  | h5 (a b c d e : HashVal)
  deriving DecidableEq, Repr

instance : Inhabited HashVal := ⟨HashVal.raw 0⟩

/-- The free interpretation of the variadic Go hash; arities other than the
three the source uses fall back to a fixed value (they never occur). -/
def freeHash : List HashVal → HashVal
  | [a] => .h1 a
  | [a, b] => .h2 a b
  | [a, b, c, d, e] => .h5 a b c d e
  | _ => .raw 0

/-! ## The zk-circuits (`circuits` package)

The constraint systems are modelled as satisfaction predicates over the BN254
scalar field.  The MiMC sponge and the in-circuit EdDSA verifier are opaque
primitives here (no claim depends on their internals), so they are parameters:
`mimc : List F → F` for the hash written value-by-value into the sponge, and a
boolean oracle for `eddsa.Verify`. -/

/-- The BN254 scalar-field modulus `r` (the field gnark circuits and the
`config.Hash` MiMC operate in). -/
def P : Nat :=
  21888242871839275222246405745257275088548364400416034343698204186575808495617

/-- A BN254 scalar-field element. -/
abbrev F : Type := ZMod P

/-- `api.AssertIsLessOrEqual a b`: gnark's comparison gadget compares the
canonical non-negative values of the two field elements. -/
def cmpLE (a b : F) : Prop := a.val ≤ b.val

instance (a b : F) : Decidable (cmpLE a b) :=
  inferInstanceAs (Decidable (a.val ≤ b.val))

/-- `verifyHashCommitment` (helper segment of
`src/circuits/deposit_circuit.go:147-161`): write `values` into the MiMC
sponge, re-hash the digest `iterations - 1` further times, and constrain
`commitment` to equal the result. -/
def verifyHashCommitment (mimc : List F → F) (commitment : F)
    (iterations : Nat) (values : List F) : Prop :=
  commitment = (fun h => mimc [h])^[iterations - 1] (mimc values)

instance (mimc : List F → F) (c : F) (it : Nat) (vs : List F) :
    Decidable (verifyHashCommitment mimc c it vs) := by
  unfold verifyHashCommitment
  infer_instance

/-- The fold of gnark's `merkle.MerkleProof.VerifyProof`: combine the running
digest with each sibling, ordered by the index bit at that level. -/
def merkleNodeFold (mimc : List F → F) (sum : F) (idx : Nat) : List F → F
  | [] => sum
  | p :: ps =>
      merkleNodeFold mimc (if idx % 2 = 0 then mimc [sum, p] else mimc [p, sum])
        (idx / 2) ps

/-- gnark's `merkle.MerkleProof.VerifyProof(api, &mimc, index)`: hash the leaf
`path[0]`, decompose `index` into `len(path) - 1` bits (which constrains its
value below `2^(len(path)-1)`), fold the siblings in, and constrain the result
to equal `RootHash`. -/
def MerkleProofVerify (mimc : List F → F) (root : F) (path : List F)
    (leafIndex : F) : Prop :=
  leafIndex.val < 2 ^ (path.length - 1) ∧
  merkleNodeFold mimc (mimc [path.headD 0]) leafIndex.val path.tail = root

instance (mimc : List F → F) (root : F) (path : List F) (leafIndex : F) :
    Decidable (MerkleProofVerify mimc root path leafIndex) := by
  unfold MerkleProofVerify
  infer_instance

/-- `validateAddressXYConstraint` (`src/unnamed/part_005:64-75`):
`api.Or(IsZero address, And(IsZero x, IsZero y)) = 1`. -/
def validateAddressXYConstraint (address x y : F) : Prop :=
  address = 0 ∨ (x = 0 ∧ y = 0)

instance (address x y : F) : Decidable (validateAddressXYConstraint address x y) := by
  unfold validateAddressXYConstraint
  infer_instance

namespace Circuits

/-- `DepositCircuit` in its latest form (`src/circuits/deposit_circuit.go:69-88`,
the variant that shares `verifyHashCommitment` with the latest withdrawal
circuits): only `Amount` and `Commitment` carry the `gnark:",public"` tag;
`OutputX`, `OutputY`, `K`, `R` are private witnesses. -/
structure DepositCircuit where
  Amount : F
  Commitment : F
  OutputX : F
  OutputY : F
  K : F
  R : F

/-- The `gnark:",public"` field tags of `DepositCircuit`
(`src/circuits/deposit_circuit.go:69-79`). -/
def DepositCircuit.publicInputFields : List String := ["Amount", "Commitment"]

/-- The `gnark:",public"` field tags of the other `DepositCircuit` variant in
the same source file (`src/circuits/deposit_circuit.go:106-116`), which tags
the output public key as public as well.  Its `Define` body imposes the same
constraint as `DepositCircuit.Define`. -/
def DepositCircuitOutputPublicVariant.publicInputFields : List String :=
  ["Amount", "Commitment", "OutputX", "OutputY"]

/-- `DepositCircuit.Define` (`src/circuits/deposit_circuit.go:81-88`):
`hash(hash(Amount, K, R, OutputX, OutputY)) == Commitment` via
`verifyHashCommitment` with 2 iterations.  A witness admits a gnark proof
exactly when the registered constraints hold. -/
def DepositCircuit.Define (mimc : List F → F) (c : DepositCircuit) : Prop :=
  verifyHashCommitment mimc c.Commitment 2 [c.Amount, c.K, c.R, c.OutputX, c.OutputY]

instance (mimc : List F → F) (c : DepositCircuit) :
    Decidable (DepositCircuit.Define mimc c) := by
  unfold DepositCircuit.Define
  infer_instance

/-- The latest `WithdrawalCircuit` (`src/unnamed/part_005:25-62`), with public
address slots, a spent (transferred) sub-note and an unspent (change)
sub-note.  `Sig` is the opaque type of the in-circuit `eddsa.Signature`
assignment; `SpendablePath` is `[MerkleTreeLevels + 1]frontend.Variable`.
The field name `SpenderAddess` reproduces the source's spelling. -/
structure WithdrawalCircuit (Sig : Type) where
  WithdrawalAddress : F
  WithdrawalAmount : F
  Fee : F
  Nullifier : F
  Root : F
  UnspentCommitment : F
  SpentCommitment : F
  SpenderAddess : F
  OutputAddress : F
  SpenderX : F
  SpenderY : F
  Signature : Sig
  OutputX : F
  OutputY : F
  SpendableK : F
  SpendableR : F
  SpendableAmount : F
  SpendableIndex : F
  SpendablePath : List F
  SpentAmount : F
  SpentK : F
  SpentR : F
  UnspentAmount : F
  UnspentK : F
  UnspentR : F

/-- `WithdrawalCircuit.Define` (`src/unnamed/part_005:77-133`): the conjunction
of the registered constraints.  The balance block (`part_005:122-130`, likewise
`src/unnamed/part_004:100-108`) is the final three conjuncts.  A witness admits
a gnark proof exactly when all constraints hold. -/
def WithdrawalCircuit.Define {Sig : Type} (mimc : List F → F)
    (eddsaVerify : Sig → F → F × F → Bool) (c : WithdrawalCircuit Sig) : Prop :=
  validateAddressXYConstraint c.SpenderAddess c.SpenderX c.SpenderY ∧
  validateAddressXYConstraint c.OutputAddress c.OutputX c.OutputY ∧
  verifyHashCommitment mimc c.Nullifier 1 [c.SpendableAmount, c.SpendableK] ∧
  verifyHashCommitment mimc c.UnspentCommitment 2
    [c.UnspentAmount, c.UnspentK, c.UnspentR, c.SpenderX, c.SpenderY] ∧
  verifyHashCommitment mimc c.SpentCommitment 2
    [c.SpentAmount, c.SpentK, c.SpentR, c.OutputX, c.OutputY] ∧
  eddsaVerify c.Signature c.UnspentCommitment (c.SpenderX, c.SpenderY) = true ∧
  verifyHashCommitment mimc (c.SpendablePath.headD 0) 1
    [c.SpendableAmount, c.SpendableK, c.SpendableR, c.SpenderX, c.SpenderY] ∧
  MerkleProofVerify mimc c.Root c.SpendablePath c.SpendableIndex ∧
  cmpLE (c.WithdrawalAmount + c.SpentAmount) c.SpendableAmount ∧
  cmpLE c.Fee (c.SpendableAmount - (c.WithdrawalAmount + c.SpentAmount)) ∧
  c.UnspentAmount = c.SpendableAmount - (c.WithdrawalAmount + c.SpentAmount) - c.Fee

instance {Sig : Type} (mimc : List F → F) (ev : Sig → F → F × F → Bool)
    (c : WithdrawalCircuit Sig) : Decidable (WithdrawalCircuit.Define mimc ev c) := by
  unfold WithdrawalCircuit.Define
  infer_instance

/-- The `WithdrawalCircuit` variant that `test/testing.go` builds assignments
for (`src/circuits/withdrawal_circuit.go:153-181`): a single change output, no
address slots.  In the source it is also named `WithdrawalCircuit`; the suffix
distinguishes it here. -/
structure WithdrawalCircuitLegacy (Sig : Type) where
  Recipient : F
  Withdrawal : F
  Fee : F
  Commitment : F
  Nullifier : F
  Root : F
  OutputX : F
  OutputY : F
  K : F
  R : F
  Amount : F
  Change : F
  K2 : F
  R2 : F
  Index : F
  InputX : F
  InputY : F
  Signature : Sig
  Path : List F

/-- `Define` of the testing-era withdrawal circuit
(`src/circuits/withdrawal_circuit.go:183-252`). -/
def WithdrawalCircuitLegacy.Define {Sig : Type} (mimc : List F → F)
    (eddsaVerify : Sig → F → F × F → Bool) (c : WithdrawalCircuitLegacy Sig) : Prop :=
  c.Nullifier = mimc [c.Amount, c.K] ∧
  c.Commitment = mimc [mimc [c.Change, c.K2, c.R2, c.OutputX, c.OutputY]] ∧
  eddsaVerify c.Signature c.Commitment (c.InputX, c.InputY) = true ∧
  c.Path.headD 0 = mimc [c.Amount, c.K, c.R, c.InputX, c.InputY] ∧
  MerkleProofVerify mimc c.Root c.Path c.Index ∧
  cmpLE c.Withdrawal c.Amount ∧
  cmpLE c.Fee (c.Amount - c.Withdrawal) ∧
  c.Change = c.Amount - c.Withdrawal - c.Fee

instance {Sig : Type} (mimc : List F → F) (ev : Sig → F → F × F → Bool)
    (c : WithdrawalCircuitLegacy Sig) :
    Decidable (WithdrawalCircuitLegacy.Define mimc ev c) := by
  unfold WithdrawalCircuitLegacy.Define
  infer_instance

end Circuits

/-! ## Configuration constants (`config/config.go`) and the composer -/

namespace config

def MerkleTreeLevels : Nat := 32

def RootsCount : Nat := 50

/-- Top-level transactions needed for the logicsig verifier opcode budget. -/
def VerifierTopLevelTxnNeeded : Nat := 8

def DepositMinFeeMultiplier : Nat := 56

def WithdrawalMinFeeMultiplier : Nat := 180

/-- MBR for each nullifier box: `2500 + 400 * 32`. -/
def NullifierMbr : Nat := 15300

end config

/-- `transaction.MinTxnFee` of the Algorand Go SDK: 1000 microalgos. -/
def MinTxnFee : Nat := 1000

/-- One transaction of a composed group, reduced to what the claims quantify
over: its role and the flat fee set on it (`sp.FlatFee = true` throughout, so
the set fee is the paid fee). -/
structure GroupTxn where
  role : String
  fee : Nat
  deriving DecidableEq, Repr

/-- The deposit group composed by `SendDeposit` (`src/test/testing.go:230-305`):
the `deposit` method call signed by the deposit verifier with `sp.Fee = 0`, the
payment carrying `transaction.MinTxnFee * config.DepositMinFeeMultiplier`, then
`config.VerifierTopLevelTxnNeeded - 2` `noop` method calls with fee 0. -/
def depositGroup : List GroupTxn :=
  ⟨"deposit", 0⟩ :: ⟨"pay", MinTxnFee * config.DepositMinFeeMultiplier⟩ ::
    List.replicate (config.VerifierTopLevelTxnNeeded - 2) ⟨"noop", 0⟩

/-- The fee defaulting of `SendWithdrawal` (`src/test/testing.go:369-371`): a
zero `opts.fee` becomes `WithdrawalMinFeeMultiplier * MinTxnFee + NullifierMbr`. -/
def resolvedWithdrawalFee (optsFee : Nat) : Nat :=
  if optsFee = 0 then
    config.WithdrawalMinFeeMultiplier * MinTxnFee + config.NullifierMbr
  else optsFee

/-- The withdrawal group composed by `SendWithdrawal`
(`src/test/testing.go:470-533`), for the already-resolved `fee`: the `withdraw`
method call signed by the withdrawal verifier with `sp.Fee = 0`, the fee-paying
`noop` call with `sp.Fee = fee - config.NullifierMbr` (a `uint64` subtraction),
then `config.VerifierTopLevelTxnNeeded - 2` `noop` calls with fee 0. -/
def withdrawalGroup (fee : Nat) : List GroupTxn :=
  ⟨"withdraw", 0⟩ :: ⟨"noop", goSub64 fee config.NullifierMbr⟩ ::
    List.replicate (config.VerifierTopLevelTxnNeeded - 2) ⟨"noop", 0⟩

/-! ## The coordinator (`test/testing.go`)

`SendDeposit` and `SendWithdrawal` are modelled end to end.  The ledger
round-trips (`SuggestedParams`, `Simulate`, `Execute` + `parseResult`, and the
global-state read of the `root` key) are an oracle of responses; byte-level
marshalling, box references and signers are irrelevant to the claims and are
carried only by the composed `GroupTxn` list.  `CompiledCircuit.Verify` (gnark
witness build + proof) succeeds exactly when the assignment satisfies the
circuit's constraints, so it is modelled as the decidable `Define` check. -/

/-- `eddsa.PublicKey`: the affine point coordinates, as 32-byte strings. -/
structure EddsaPublicKey (B : Type) where
  AX : B
  AY : B
  deriving DecidableEq

/-- `eddsa.PrivateKey`, abstracted to what the coordinator uses it for: its
public key, the Diffie-Hellman map `pk ↦ scalar · pk` (the
`ScalarMultiplication` in `NewNote`), and native signing of a message. -/
structure EddsaPrivateKey (B : Type) (Sig : Type) where
  publicKey : EddsaPublicKey B
  dh : EddsaPublicKey B → B × B
  sign : B → Sig

/-- The `Note` of `test/testing.go:49-57`; `insertedIndex = -1` until the note
is confirmed on-chain. -/
structure Note (B : Type) where
  Amount : Nat
  commitment : B
  k : B
  r : B
  outputX : B
  outputY : B
  insertedIndex : Int
  deriving DecidableEq

/-- A recorded deposit (`TxnIds` omitted — no claim mentions them). -/
structure Deposit (B : Type) where
  FromAddress : B
  Note : Note B
  deriving DecidableEq

/-- A recorded withdrawal (`TxnIds` omitted — no claim mentions them). -/
structure Withdrawal (B : Type) where
  ToAddress : B
  Note : Note B
  deriving DecidableEq

/-- The `Frontend` of `test/testing.go:81-86` (the `App` bundle of compiled
artefacts is implicit in the oracle and circuit parameters). -/
structure Frontend (B : Type) where
  Tree : Tree B
  Deposits : List (Deposit B)
  Withdrawals : List (Withdrawal B)

/-- The simulation result fields the composer reads
(`simRes.SimulateResponse.TxnGroups[0]`). -/
structure SimResult where
  AppBudgetConsumed : Nat
  AppBudgetAdded : Nat
  deriving DecidableEq, Repr

/-- The ledger round-trip responses consumed by one `SendDeposit` or
`SendWithdrawal` call: `SuggestedParams`, `Simulate`, `Execute` combined with
`parseResult` (yielding the returned leaf index and root), and the read of the
on-chain global `root` key (`readRootOnchain` / `GetRoot`). -/
structure AlgodResponses (B : Type) where
  suggestedParams : Except String Unit
  simulate : Except String SimResult
  executeResult : Except String (Nat × B)
  rootOnchain : Except String B

section Coordinator

variable {B : Type} [DecidableEq B] [Inhabited B] {Sig : Type}
variable (hashFunc : List B → B) (u64b : Nat → B) (kDomain rDomain : B)
variable (toF : B → F) (mimc : List F → F) (eddsaVerify : Sig → F → F × F → Bool)

/-- `Frontend.MakeNullifier` (`src/test/testing.go:59-61`):
`hashFunc(uint64ToBytes32(note.Amount), note.k)`. -/
def MakeNullifier (note : Note B) : B :=
  hashFunc [u64b note.Amount, note.k]

/-- `Frontend.MakeLeafValue` (`src/test/testing.go:63-67`). -/
def MakeLeafValue (note : Note B) : B :=
  hashFunc [u64b note.Amount, note.k, note.r, note.outputX, note.outputY]

/-- `Frontend.MakeCommitment` (`src/test/testing.go:113-121`): the double
hash. -/
def MakeCommitment (amount : Nat) (k r : B) (pubkey : EddsaPublicKey B) : B :=
  hashFunc [hashFunc [u64b amount, k, r, pubkey.AX, pubkey.AY]]

/-- `Frontend.NewNote` (`src/test/testing.go:150-190`): derive the shared
point by scalar-multiplying the output public key with the input private
scalar, hash its coordinates into a shared secret, derive `k` and `r` with the
32-byte domain separators ending in `'k'` and `'r'`, and build the
commitment. -/
def NewNote (amount : Nat) (inputPrivKey : EddsaPrivateKey B Sig)
    (outputPubkey : EddsaPublicKey B) : Note B :=
  let sharedPoint := inputPrivKey.dh outputPubkey
  let sharedSecret := hashFunc [sharedPoint.1, sharedPoint.2]
  let k := hashFunc [sharedSecret, kDomain]
  let r := hashFunc [sharedSecret, rDomain]
  { Amount := amount
    commitment := MakeCommitment hashFunc u64b amount k r outputPubkey
    k := k
    r := r
    outputX := outputPubkey.AX
    outputY := outputPubkey.AY
    insertedIndex := -1 }

/-- The `circuits.DepositCircuit` assignment that `SendDeposit` builds
(`src/test/testing.go:203-214`). -/
def depositAssignment (amount : Nat) (outputPubkey : EddsaPublicKey B)
    (inputPrivkey : EddsaPrivateKey B Sig) : Circuits.DepositCircuit :=
  let note := NewNote hashFunc u64b kDomain rDomain amount inputPrivkey outputPubkey
  { Amount := (amount : F)
    Commitment := toF note.commitment
    OutputX := toF note.outputX
    OutputY := toF note.outputY
    K := toF note.k
    R := toF note.r }

/-- `Frontend.SendDeposit` (`src/test/testing.go:199-345`), step for step:
build the note, check the deposit-circuit witness (`DepositCc.Verify`), fetch
suggested params, compose `depositGroup`, simulate (the budgets are printed,
not compared), execute, parse the returned leaf index and root, read the
on-chain `root` key, fail on mismatch, and only then record the note and
append its commitment to the local tree mirror. -/
def SendDeposit (fr : Frontend B) (algod : AlgodResponses B) (fromAddr : B)
    (amount : Nat) (outputPubkey : EddsaPublicKey B)
    (inputPrivkey : EddsaPrivateKey B Sig) :
    Except String (Frontend B × Deposit B) :=
  let note := NewNote hashFunc u64b kDomain rDomain amount inputPrivkey outputPubkey
  if Circuits.DepositCircuit.Define mimc
      (depositAssignment hashFunc u64b kDomain rDomain toF amount outputPubkey inputPrivkey) then
    match algod.suggestedParams with
    | .error e => .error ("failed to get suggested params: " ++ e)
    | .ok _ =>
      let _group := depositGroup
      match algod.simulate with
      | .error e => .error ("failed to simulate transaction: " ++ e)
      | .ok _simRes =>
        match algod.executeResult with
        | .error e => .error ("failed to execute transaction: " ++ e)
        | .ok (index, root) =>
          match algod.rootOnchain with
          | .error e => .error ("failed to read root onchain: " ++ e)
          | .ok rootOnchain =>
            if root ≠ rootOnchain then
              .error "root mismatch"
            else
              let note := { note with insertedIndex := (index : Int) }
              let tree := { fr.Tree with
                leafHashes := fr.Tree.leafHashes ++ [note.commitment] }
              let d : Deposit B := { FromAddress := fromAddr, Note := note }
              .ok ({ fr with Tree := tree, Deposits := fr.Deposits ++ [d] }, d)
  else
    .error "failed to verify deposit proof"

/-- `WithdrawalOpts` (`src/test/testing.go:347-355`).  `feeSignerSet` stands
for `feeSigner != nil`. -/
structure WithdrawalOpts (B : Type) where
  recipient : B
  feeRecipient : B
  feeSignerSet : Bool
  amount : Nat
  fee : Nat
  noChange : Bool
  fromNote : Note B

/-- The `circuits.WithdrawalCircuit` assignment that `SendWithdrawal` builds
(`src/test/testing.go:421-441`), given the Merkle proof from the local mirror
and the on-chain root: fee defaulting, the `uint64`-wrapping change amount,
the change note, its signature, and the nullifier all enter here exactly as in
the source. -/
def withdrawalAssignment (opts : WithdrawalOpts B)
    (inputPrivkey : EddsaPrivateKey B Sig) (outputPubkey : EddsaPublicKey B)
    (merkleProof : List B) (root : B) : Circuits.WithdrawalCircuitLegacy Sig :=
  let fee := resolvedWithdrawalFee opts.fee
  let change := goSub64 (goSub64 opts.fromNote.Amount opts.amount) fee
  let changeNote := NewNote hashFunc u64b kDomain rDomain change inputPrivkey outputPubkey
  { Recipient := toF opts.recipient
    Withdrawal := (opts.amount : F)
    Fee := (fee : F)
    Commitment := toF changeNote.commitment
    Nullifier := toF (MakeNullifier hashFunc u64b opts.fromNote)
    Root := toF root
    K := toF opts.fromNote.k
    R := toF opts.fromNote.r
    Amount := (opts.fromNote.Amount : F)
    Change := (changeNote.Amount : F)
    K2 := toF changeNote.k
    R2 := toF changeNote.r
    Index := (opts.fromNote.insertedIndex.toNat : F)
    InputX := toF inputPrivkey.publicKey.AX
    InputY := toF inputPrivkey.publicKey.AY
    Signature := inputPrivkey.sign changeNote.commitment
    OutputX := toF outputPubkey.AX
    OutputY := toF outputPubkey.AY
    Path := merkleProof.map toF }

/-- `Frontend.SendWithdrawal` (`src/test/testing.go:357-565`), step for step:
default the fee, compute the change as a `uint64` subtraction (no underflow
guard), build the change note, reject an un-inserted source note, build the
Merkle proof from the local mirror, read the on-chain root, sign the change
commitment, check the withdrawal-circuit witness (`WithdrawalCc.Verify`),
fetch suggested params, compose `withdrawalGroup fee`, simulate (budgets
printed, not compared), execute, parse the returned leaf index — the returned
root is discarded — and append the change commitment to the local tree mirror
without any root comparison. -/
def SendWithdrawal (fr : Frontend B) (algod : AlgodResponses B)
    (opts : WithdrawalOpts B) (inputPrivkey : EddsaPrivateKey B Sig)
    (outputPubkey : EddsaPublicKey B) :
    Except String (Frontend B × Withdrawal B) :=
  let fee := resolvedWithdrawalFee opts.fee
  let change := goSub64 (goSub64 opts.fromNote.Amount opts.amount) fee
  let changeNote := NewNote hashFunc u64b kDomain rDomain change inputPrivkey outputPubkey
  let commitment := changeNote.commitment
  if opts.fromNote.insertedIndex = -1 then
    .error "note not inserted in the tree"
  else
    let index := opts.fromNote.insertedIndex.toNat
    let leaf := MakeLeafValue hashFunc u64b opts.fromNote
    match createMerkleProof hashFunc fr.Tree leaf index with
    | .error (.goError msg) => .error ("failed to create merkle proof: " ++ msg)
    | .error .runtimeFault => .error "panic: runtime error: index out of range"
    | .ok merkleProof =>
      match algod.rootOnchain with
      | .error e => .error ("failed to get root: " ++ e)
      | .ok root =>
        if Circuits.WithdrawalCircuitLegacy.Define mimc eddsaVerify
            (withdrawalAssignment hashFunc u64b kDomain rDomain toF opts
              inputPrivkey outputPubkey merkleProof root) then
          match algod.suggestedParams with
          | .error e => .error ("failed to get suggested params: " ++ e)
          | .ok _ =>
            let _group := withdrawalGroup fee
            match algod.simulate with
            | .error e => .error ("failed to simulate transaction: " ++ e)
            | .ok _simRes =>
              match algod.executeResult with
              | .error e => .error ("failed to execute transaction: " ++ e)
              | .ok (changeIndex, _returnedRoot) =>
                let changeNote := { changeNote with insertedIndex := (changeIndex : Int) }
                let tree := { fr.Tree with
                  leafHashes := fr.Tree.leafHashes ++ [changeNote.commitment] }
                let w : Withdrawal B := { ToAddress := opts.recipient, Note := changeNote }
                .ok ({ fr with Tree := tree, Withdrawals := fr.Withdrawals ++ [w] }, w)
        else
          .error "failed to verify withdrawal proof"

end Coordinator

/-! ## Concrete fixtures over the free hash algebra -/

/-- A depth-1 tree configuration with the canonical zero hashes over the raw
zero value, as `config.GenerateZeroHashes` produces them. -/
def cfgD1 : TreeConfig HashVal :=
  ⟨1, .raw 0, GenerateZeroHashes freeHash 1 (.raw 0)⟩

/-- A depth-2 tree configuration with the canonical zero hashes over the raw
zero value. -/
def cfgD2 : TreeConfig HashVal :=
  ⟨2, .raw 0, GenerateZeroHashes freeHash 2 (.raw 0)⟩

/-- The constant-zero instantiation of the MiMC parameter, used to evaluate
the circuit predicates and coordinator pipeline on concrete inputs. -/
def zeroMimc : List F → F := fun _ => 0

/-- An always-accepting instantiation of the in-circuit EdDSA verifier. -/
def trueEddsa : Unit → F → F × F → Bool := fun _ _ _ => true

/-- A satisfying assignment of the latest withdrawal circuit under `zeroMimc`
and `trueEddsa`: spendable 2 = withdrawal 1 + spent 0 + fee 1 + unspent 0. -/
def withdrawalFixture : Circuits.WithdrawalCircuit Unit :=
  { WithdrawalAddress := 0
    WithdrawalAmount := 1
    Fee := 1
    Nullifier := 0
    Root := 0
    UnspentCommitment := 0
    SpentCommitment := 0
    SpenderAddess := 0
    OutputAddress := 0
    SpenderX := 0
    SpenderY := 0
    Signature := ()
    OutputX := 0
    OutputY := 0
    SpendableK := 0
    SpendableR := 0
    SpendableAmount := 2
    SpendableIndex := 0
    SpendablePath := List.replicate (config.MerkleTreeLevels + 1) 0
    SpentAmount := 0
    SpentK := 0
    SpentR := 0
    UnspentAmount := 0
    UnspentK := 0
    UnspentR := 0 }

/-- `uint64ToBytes32` over the free byte-string algebra. -/
def u64raw : Nat → HashVal := HashVal.raw

/-- The 32-byte domain separator ending in the byte `'k'` (107). -/
def kDom : HashVal := .raw 107

/-- The 32-byte domain separator ending in the byte `'r'` (114). -/
def rDom : HashVal := .raw 114

/-- The byte-string-to-field interpretation used by the concrete pipeline
fixtures; constant zero pairs with `zeroMimc`. -/
def constF : HashVal → F := fun _ => 0

/-- A fixture public key. -/
def testPub : EddsaPublicKey HashVal := ⟨.raw 3, .raw 4⟩

/-- A fixture private key: its DH map lands on a fixed shared point, and
signing is the trivial `Unit` signature. -/
def testPriv : EddsaPrivateKey HashVal Unit :=
  { publicKey := testPub
    dh := fun _ => (.raw 5, .raw 6)
    sign := fun _ => () }

/-- A fresh frontend over a depth-2 tree. -/
def frontend0 : Frontend HashVal := ⟨NewTree cfgD2, [], []⟩

/-- Ledger responses whose simulation reports a consumed opcode budget of 900
against an added budget of 600 — a budget overrun — with execution succeeding
and the returned root matching the on-chain root. -/
def algodOverrun : AlgodResponses HashVal :=
  { suggestedParams := .ok ()
    simulate := .ok ⟨900, 600⟩
    executeResult := .ok (0, .raw 42)
    rootOnchain := .ok (.raw 42) }

/-- A source note of amount 10 held at leaf index 0. -/
def fromNote0 : Note HashVal :=
  { NewNote freeHash u64raw kDom rDom 10 testPriv testPub with insertedIndex := 0 }

/-- A frontend whose depth-1 tree mirror holds `fromNote0`'s commitment at
leaf index 0. -/
def frontendW : Frontend HashVal :=
  ⟨insertAll freeHash (NewTree cfgD1) [fromNote0.commitment], [], []⟩

/-- Ledger responses whose execution returns root `raw 99` while the on-chain
`root` key holds `raw 77` — a root divergence. -/
def algodMismatch : AlgodResponses HashVal :=
  { suggestedParams := .ok ()
    simulate := .ok ⟨100, 5600⟩
    executeResult := .ok (1, .raw 99)
    rootOnchain := .ok (.raw 77) }

/-- A withdrawal request spending 2 of `fromNote0`'s 10 with explicit fee 3. -/
def optsW : WithdrawalOpts HashVal :=
  { recipient := .raw 8
    feeRecipient := .raw 0
    feeSignerSet := false
    amount := 2
    fee := 3
    noChange := false
    fromNote := fromNote0 }

/-- The same request with a withdrawal amount of 20, exceeding the source
note's 10. -/
def optsOverdraw : WithdrawalOpts HashVal :=
  { optsW with amount := 20 }

/-- A depth-1 tree grown past its capacity of `2 ^ 1 = 2` leaves: three
`addLeaf` calls succeed because `addLeaf` never rejects (claim C5). -/
def treeOver3 : Tree HashVal :=
  insertAll freeHash (NewTree cfgD1) [.h1 (.raw 1), .h1 (.raw 2), .h1 (.raw 3)]

/-! ## Lemmas: the level structure -/

section TreeLemmas

variable {B : Type} [DecidableEq B] [Inhabited B] (f : List B → B)

theorem goGet_set_self {s : List B} {i : Nat} {x : B} (h : i < s.length) :
    goGet (s.set i x) i = x := by
  simp [goGet, List.getD, List.getElem?_set_self h]

theorem goGet_set_ne {s : List B} {i k : Nat} {x : B} (h : k ≠ i) :
    goGet (s.set i x) k = goGet s k := by
  simp [goGet, List.getD, List.getElem?_set_ne (Ne.symm h)]

theorem goGet_append_left {l : List B} {c : B} {i : Nat} (h : i < l.length) :
    goGet (l ++ [c]) i = goGet l i := by
  simp [goGet, List.getD, List.getElem?_append_left h]

theorem pairHash_length : ∀ l : List B, (pairHash f l).length = l.length / 2
  | [] => by simp [pairHash]
  | [_] => by simp [pairHash]
  | _ :: _ :: rest => by
      simp [pairHash, pairHash_length rest]
      omega

theorem goGet_cons_zero {x : B} {l : List B} : goGet (x :: l) 0 = x := rfl

theorem goGet_cons_succ {x : B} {l : List B} {n : Nat} :
    goGet (x :: l) (n + 1) = goGet l n := by
  simp [goGet]

theorem pairHash_getD : ∀ (l : List B) (j : Nat), 2 * j + 1 < l.length →
    goGet (pairHash f l) j = f [goGet l (2 * j), goGet l (2 * j + 1)]
  | [], j, h => by simp at h
  | [_], j, h => by simp only [List.length_singleton] at h; omega
  | a :: b :: rest, 0, h => by simp [pairHash, goGet]
  | a :: b :: rest, j + 1, h => by
      have hrest : 2 * j + 1 < rest.length := by
        simp only [List.length_cons] at h; omega
      have e0 : pairHash f (a :: b :: rest) = f [a, b] :: pairHash f rest := rfl
      have e1 : goGet (a :: b :: rest) (2 * (j + 1)) = goGet rest (2 * j) := by
        rw [show 2 * (j + 1) = 2 * j + 1 + 1 by omega, goGet_cons_succ, goGet_cons_succ]
      have e2 : goGet (a :: b :: rest) (2 * (j + 1) + 1) = goGet rest (2 * j + 1) := by
        rw [show 2 * (j + 1) + 1 = 2 * j + 1 + 1 + 1 by omega, goGet_cons_succ,
          goGet_cons_succ]
      rw [e0, goGet_cons_succ, e1, e2, pairHash_getD rest j hrest]

theorem getLastD_eq_goGet : ∀ l : List B, l.getLastD default = goGet l (l.length - 1)
  | [] => by simp [goGet]
  | [a] => by simp [goGet]
  | a :: b :: rest => by
      have := getLastD_eq_goGet (b :: rest)
      simpa [goGet] using this

theorem dupPad_length (l : List B) :
    (dupPad l).length = l.length + l.length % 2 := by
  unfold dupPad
  split <;> simp_all

theorem dupPad_getD_lt {l : List B} {i : Nat} (h : i < l.length) :
    goGet (dupPad l) i = goGet l i := by
  unfold dupPad
  split
  · exact goGet_append_left h
  · rfl

theorem dupPad_getD_last {l : List B} (h : l.length % 2 = 1) :
    goGet (dupPad l) l.length = goGet l (l.length - 1) := by
  unfold dupPad
  rw [if_pos h]
  rw [← getLastD_eq_goGet]
  simp [goGet, List.getD]

theorem dupLevelUp_length (l : List B) :
    (dupLevelUp f l).length = (l.length + 1) / 2 := by
  unfold dupLevelUp
  rw [pairHash_length, dupPad_length]
  omega

theorem dupLevelUp_getD_pair {l : List B} {j : Nat} (h : 2 * j + 1 < l.length) :
    goGet (dupLevelUp f l) j = f [goGet l (2 * j), goGet l (2 * j + 1)] := by
  unfold dupLevelUp
  rw [pairHash_getD]
  · rw [dupPad_getD_lt (by omega), dupPad_getD_lt h]
  · rw [dupPad_length]; omega

theorem dupLevelUp_getD_dup {l : List B} {j : Nat} (h : 2 * j + 1 = l.length) :
    goGet (dupLevelUp f l) j = f [goGet l (2 * j), goGet l (2 * j)] := by
  have hodd : l.length % 2 = 1 := by omega
  unfold dupLevelUp
  rw [pairHash_getD]
  · rw [dupPad_getD_lt (by omega)]
    have : goGet (dupPad l) (2 * j + 1) = goGet l (l.length - 1) := by
      rw [h, dupPad_getD_last hodd]
    rw [this]
    have : l.length - 1 = 2 * j := by omega
    rw [this]
  · rw [dupPad_length]; omega

theorem levelAt_length (k : Nat) (l : List B) (hl : l ≠ []) :
    (levelAt f k l).length = (l.length - 1) / 2 ^ k + 1 := by
  induction k with
  | zero =>
      have : 0 < l.length := List.length_pos.mpr hl
      simp only [levelAt, pow_zero, Nat.div_one]
      omega
  | succ k ih =>
      have h1 : 0 < l.length := List.length_pos.mpr hl
      show (dupLevelUp f (levelAt f k l)).length = _
      rw [dupLevelUp_length, ih]
      rw [Nat.pow_succ, ← Nat.div_div_eq_div_mul]
      omega

/-- Appending a leaf does not change the hash of any already-complete subtree:
position `j` at level `k` is unchanged when the leaves `[j·2^k, (j+1)·2^k)` all
lie inside the old list. -/
theorem levelAt_append_stable (c : B) :
    ∀ (k : Nat) (l : List B) (j : Nat), (j + 1) * 2 ^ k ≤ l.length →
    goGet (levelAt f k (l ++ [c])) j = goGet (levelAt f k l) j := by
  intro k
  induction k with
  | zero =>
      intro l j h
      simp only [pow_zero, mul_one] at h
      exact goGet_append_left (by omega)
  | succ k ih =>
      intro l j h
      have hl : l ≠ [] := by
        intro hnil
        subst hnil
        simp only [List.length_nil, Nat.le_zero] at h
        have hp : 0 < (j + 1) * 2 ^ (k + 1) := by positivity
        omega
      have h1 : 0 < l.length := List.length_pos.mpr hl
      have hpow : 0 < 2 ^ k := Nat.pos_pow_of_pos k (by omega)
      have hmul : (2 * j + 2) * 2 ^ k = (j + 1) * 2 ^ (k + 1) := by
        rw [Nat.pow_succ]; ring
      have hsub : (2 * j + 2) * 2 ^ k ≤ l.length := by omega
      have hstep : (2 * j + 1) * 2 ^ k + 2 ^ k = (2 * j + 2) * 2 ^ k := by ring
      have hsub1 : (2 * j + 1) * 2 ^ k ≤ l.length := by omega
      have hlen : (levelAt f k l).length = (l.length - 1) / 2 ^ k + 1 :=
        levelAt_length f k l hl
      have hlen' : (levelAt f k (l ++ [c])).length
          = (l.length + 1 - 1) / 2 ^ k + 1 := by
        rw [levelAt_length f k (l ++ [c]) (by simp)]
        simp
      have hle : 2 * j + 1 ≤ (l.length - 1) / 2 ^ k := by
        have h2 : (2 * j + 1) * 2 ^ k ≤ l.length - 1 := by omega
        exact (Nat.le_div_iff_mul_le hpow).mpr h2
      have hin : 2 * j + 1 < (levelAt f k l).length := by omega
      have hin' : 2 * j + 1 < (levelAt f k (l ++ [c])).length := by
        rw [hlen']
        have : (l.length - 1) / 2 ^ k ≤ (l.length + 1 - 1) / 2 ^ k :=
          Nat.div_le_div_right (by omega)
        omega
      show goGet (dupLevelUp f (levelAt f k (l ++ [c]))) j
          = goGet (dupLevelUp f (levelAt f k l)) j
      rw [dupLevelUp_getD_pair f hin', dupLevelUp_getD_pair f hin]
      have hc2 : (2 * j + 1 + 1) * 2 ^ k ≤ l.length := by
        rw [show 2 * j + 1 + 1 = 2 * j + 2 from by omega]
        exact hsub
      rw [ih l (2 * j) (by omega), ih l (2 * j + 1) hc2]

theorem goGet_append_last (l : List B) (c : B) : goGet (l ++ [c]) l.length = c := by
  simp [goGet]

theorem pred_div_cases {n : Nat} (k : Nat) (hn : 0 < n) :
    (n - 1) / 2 ^ k = n / 2 ^ k - 1 ∧ 2 ^ k ∣ n ∨
    (n - 1) / 2 ^ k = n / 2 ^ k ∧ ¬ 2 ^ k ∣ n := by
  have hsd := Nat.succ_div (n - 1) (2 ^ k)
  rw [Nat.sub_add_cancel hn] at hsd
  by_cases hdvd : 2 ^ k ∣ n
  · left
    have h1 : (if 2 ^ k ∣ n then 1 else 0) = 1 := if_pos hdvd
    rw [h1] at hsd
    exact ⟨by rw [hsd, Nat.add_sub_cancel], hdvd⟩
  · right
    have h0 : (if 2 ^ k ∣ n then 1 else 0) = 0 := if_neg hdvd
    rw [h0] at hsd
    exact ⟨by rw [hsd, Nat.add_zero], hdvd⟩

/-- When `n / 2^k` is odd, clearing the low bit of `(n-1) / 2^k` gives
`n / 2^k - 1`. -/
theorem pred_div_clear_bit {n : Nat} (k : Nat) (hn : 0 < n)
    (hodd : n / 2 ^ k % 2 = 1) :
    2 * ((n - 1) / 2 ^ k / 2) = n / 2 ^ k - 1 := by
  rcases pred_div_cases k hn with ⟨h, _⟩ | ⟨h, _⟩ <;>
  · rw [h]
    generalize n / 2 ^ k = y at hodd ⊢
    omega

/-- The walk of `addLeaf`, specified against the duplicate-last-node level
structure over the post-append leaf list `L` (with `m = L.length - 1` the
position of the new leaf): entering level `i` with the level-`i` node on the
new leaf's path, it exits with the level-`i+fuel` node on that path, and each
level `k` it crossed holds the node at the even-aligned position of the
path. -/
theorem addLeafLoop_spec (L : List B) (d : Nat) (hL : L ≠ []) :
    ∀ (fuel i : Nat) (cur : B) (s : List B),
      i + fuel ≤ d →
      s.length = d + 1 →
      cur = goGet (levelAt f i L) ((L.length - 1) / 2 ^ i) →
      (∀ k, i ≤ k → k < i + fuel → ((L.length - 1) / 2 ^ k) % 2 = 1 →
        goGet s k = goGet (levelAt f k L) ((L.length - 1) / 2 ^ k - 1)) →
      (addLeafLoop f fuel i ((L.length - 1) / 2 ^ i) cur s).2
          = goGet (levelAt f (i + fuel) L) ((L.length - 1) / 2 ^ (i + fuel)) ∧
      (addLeafLoop f fuel i ((L.length - 1) / 2 ^ i) cur s).1.length = d + 1 ∧
      (∀ k, goGet (addLeafLoop f fuel i ((L.length - 1) / 2 ^ i) cur s).1 k =
        if i ≤ k ∧ k < i + fuel ∧ ((L.length - 1) / 2 ^ k) % 2 = 0
        then goGet (levelAt f k L) ((L.length - 1) / 2 ^ k)
        else goGet s k) := by
  intro fuel
  induction fuel with
  | zero =>
      intro i cur s hfuel hs hcur hodd
      refine ⟨by simpa [addLeafLoop] using hcur, by simpa [addLeafLoop] using hs, ?_⟩
      intro k
      simp only [addLeafLoop]
      rw [if_neg (by omega)]
  | succ fuel ih =>
      intro i cur s hfuel hs hcur hodd
      set m := L.length - 1 with hm
      have hi_lt : i < s.length := by omega
      have hlevlen : (levelAt f i L).length = m / 2 ^ i + 1 := by
        rw [levelAt_length f i L hL]
      have hdiv2 : m / 2 ^ i / 2 = m / 2 ^ (i + 1) := by
        rw [Nat.div_div_eq_div_mul, Nat.pow_succ]
      by_cases hq : m / 2 ^ i % 2 = 0
      · -- even branch: writes s[i] := cur and hashes cur with itself
        have hstep : addLeafLoop f (fuel + 1) i (m / 2 ^ i) cur s
            = addLeafLoop f fuel (i + 1) (m / 2 ^ i / 2)
              (f [cur, goGet (s.set i cur) i]) (s.set i cur) := by
          simp only [addLeafLoop, hq, if_pos]
        rw [goGet_set_self hi_lt] at hstep
        have hlev1 : levelAt f (i + 1) L = dupLevelUp f (levelAt f i L) := rfl
        have hcur1 : f [cur, cur]
            = goGet (levelAt f (i + 1) L) (m / 2 ^ (i + 1)) := by
          have hdup : 2 * (m / 2 ^ i / 2) + 1 = (levelAt f i L).length := by
            rw [hlevlen]; omega
          rw [hlev1, ← hdiv2]
          rw [dupLevelUp_getD_dup f hdup]
          rw [show 2 * (m / 2 ^ i / 2) = m / 2 ^ i from by omega]
          rw [← hcur]
        have hrec := ih (i + 1) (f [cur, cur]) (s.set i cur) (by omega)
          (by simp [hs]) hcur1
          (by
            intro k hk1 hk2 hk3
            rw [goGet_set_ne (by omega)]
            exact hodd k (by omega) (by omega) hk3)
        rw [← hdiv2] at hrec
        obtain ⟨hr1, hr2, hr3⟩ := hrec
        rw [hstep]
        refine ⟨by rw [hr1]; ring_nf, hr2, ?_⟩
        intro k
        rw [hr3 k]
        by_cases hk : k = i
        · subst hk
          rw [if_neg (by omega), if_pos (by refine ⟨by omega, by omega, hq⟩)]
          rw [goGet_set_self hi_lt, hcur, hm]
        · by_cases hrange : i + 1 ≤ k ∧ k < i + 1 + fuel ∧ m / 2 ^ k % 2 = 0
          · rw [if_pos hrange, if_pos ⟨by omega, by omega, hrange.2.2⟩]
          · rw [if_neg hrange, goGet_set_ne hk, if_neg (by omega)]
      · -- odd branch: hashes the stored left sibling with cur
        have hq1 : m / 2 ^ i % 2 = 1 := by omega
        have hstep : addLeafLoop f (fuel + 1) i (m / 2 ^ i) cur s
            = addLeafLoop f fuel (i + 1) (m / 2 ^ i / 2)
              (f [goGet s i, cur]) s := by
          simp only [addLeafLoop, hq, if_neg, if_false]
        have hsi : goGet s i = goGet (levelAt f i L) (m / 2 ^ i - 1) :=
          hodd i (by omega) (by omega) hq1
        have hlev1 : levelAt f (i + 1) L = dupLevelUp f (levelAt f i L) := rfl
        have hcur1 : f [goGet s i, cur]
            = goGet (levelAt f (i + 1) L) (m / 2 ^ (i + 1)) := by
          have hpair : 2 * (m / 2 ^ i / 2) + 1 < (levelAt f i L).length := by
            rw [hlevlen]; omega
          rw [hlev1, ← hdiv2]
          rw [dupLevelUp_getD_pair f hpair]
          rw [show 2 * (m / 2 ^ i / 2) + 1 = m / 2 ^ i from by omega,
            show 2 * (m / 2 ^ i / 2) = m / 2 ^ i - 1 from by omega]
          rw [← hcur, ← hsi]
        have hrec := ih (i + 1) (f [goGet s i, cur]) s (by omega) hs hcur1
          (by
            intro k hk1 hk2 hk3
            exact hodd k (by omega) (by omega) hk3)
        rw [← hdiv2] at hrec
        obtain ⟨hr1, hr2, hr3⟩ := hrec
        rw [hstep]
        refine ⟨by rw [hr1]; ring_nf, hr2, ?_⟩
        intro k
        rw [hr3 k]
        by_cases hk : k = i
        · subst hk
          rw [if_neg (by omega), if_neg (by omega)]
        · by_cases hrange : i + 1 ≤ k ∧ k < i + 1 + fuel ∧ m / 2 ^ k % 2 = 0
          · rw [if_pos hrange, if_pos ⟨by omega, by omega, hrange.2.2⟩]
          · rw [if_neg hrange, if_neg (by omega)]

/-- `addLeaf` into a fresh (empty) tree establishes the frontier invariant. -/
theorem addLeaf_inv_base {d : Nat} (t : Tree B) (c : B)
    (ht : t.leafHashes = []) (hd : t.depth = d) (hs : t.subTree.length = d + 1) :
    (addLeaf f t c).1.leafHashes = [c] ∧ (addLeaf f t c).1.depth = d ∧
    TreeInv f d [c] (addLeaf f t c).1.subTree := by
  obtain ⟨st, lh, dp⟩ := t
  simp only at ht hd hs
  subst ht hd
  have hL' : ([] ++ [c] : List B) ≠ [] := by simp
  have hw := addLeafLoop_spec f ([] ++ [c]) dp hL' dp 0 c st (by omega) hs
    (by simp [levelAt, goGet])
    (by
      intro k hk0 hkd hkodd
      simp at hkodd)
  simp only [List.nil_append, List.length_singleton, Nat.sub_self, Nat.zero_div,
    Nat.zero_add] at hw
  obtain ⟨hw1, hw2, hw3⟩ := hw
  have E : addLeaf f ⟨st, [], dp⟩ c
      = ({ subTree := (addLeafLoop f dp 0 0 c st).1.set dp (addLeafLoop f dp 0 0 c st).2,
           leafHashes := [c], depth := dp }, 0) := rfl
  rw [E]
  refine ⟨rfl, rfl, ?_, ?_, ?_⟩
  · simpa [List.length_set] using hw2
  · intro k hk
    show goGet ((addLeafLoop f dp 0 0 c st).1.set dp (addLeafLoop f dp 0 0 c st).2) k = _
    rw [goGet_set_ne (by omega), hw3 k, if_pos ⟨by omega, by omega, by simp⟩]
    simp
  · show goGet ((addLeafLoop f dp 0 0 c st).1.set dp (addLeafLoop f dp 0 0 c st).2) dp = _
    have hdlt : dp < (addLeafLoop f dp 0 0 c st).1.length := by
      rw [hw2]; omega
    rw [goGet_set_self hdlt, hw1]
    simp

/-- `addLeaf` preserves the frontier invariant. -/
theorem addLeaf_inv_step {d : Nat} {L : List B} (t : Tree B) (c : B)
    (ht : t.leafHashes = L) (hd : t.depth = d) (hL : L ≠ [])
    (hinv : TreeInv f d L t.subTree) :
    (addLeaf f t c).1.leafHashes = L ++ [c] ∧ (addLeaf f t c).1.depth = d ∧
    TreeInv f d (L ++ [c]) (addLeaf f t c).1.subTree := by
  obtain ⟨st, lh, dp⟩ := t
  simp only at ht hd hinv ⊢
  subst ht hd
  obtain ⟨hs, hinvk, hinvd⟩ := hinv
  have hLpos : 0 < lh.length := List.length_pos.mpr hL
  have hL' : (lh ++ [c] : List B) ≠ [] := by simp
  have hm : (lh ++ [c]).length - 1 = lh.length := by simp
  have hodd0 : ∀ k, 0 ≤ k → k < 0 + dp → (lh.length / 2 ^ k) % 2 = 1 →
      goGet st k = goGet (levelAt f k (lh ++ [c])) (lh.length / 2 ^ k - 1) := by
    intro k _ hkd hkodd
    have hclear := pred_div_clear_bit k hLpos hkodd
    have h1 : 1 ≤ lh.length / 2 ^ k := by
      rcases Nat.eq_zero_or_pos (lh.length / 2 ^ k) with h0 | h1
      · rw [h0] at hkodd; simp at hkodd
      · exact h1
    have hstable : goGet (levelAt f k (lh ++ [c])) (lh.length / 2 ^ k - 1)
        = goGet (levelAt f k lh) (lh.length / 2 ^ k - 1) := by
      apply levelAt_append_stable
      rw [show lh.length / 2 ^ k - 1 + 1 = lh.length / 2 ^ k from by
        generalize lh.length / 2 ^ k = y at h1 ⊢
        omega]
      exact Nat.div_mul_le_self lh.length (2 ^ k)
    rw [hstable, ← hclear]
    exact hinvk k (by omega)
  have hcur0 : c = goGet (levelAt f 0 (lh ++ [c])) (lh.length / 2 ^ 0) := by
    simp only [levelAt, pow_zero, Nat.div_one]
    rw [goGet_append_last]
  have hw := addLeafLoop_spec f (lh ++ [c]) dp hL' dp 0 c st (by omega) hs
    (by rw [hm]; exact hcur0)
    (by rw [hm]; exact hodd0)
  rw [hm] at hw
  simp only [Nat.zero_add, pow_zero, Nat.div_one] at hw
  obtain ⟨hw1, hw2, hw3⟩ := hw
  have E : addLeaf f ⟨st, lh, dp⟩ c
      = ({ subTree := (addLeafLoop f dp 0 ((lh ++ [c]).length - 1) c st).1.set dp
             (addLeafLoop f dp 0 ((lh ++ [c]).length - 1) c st).2,
           leafHashes := lh ++ [c], depth := dp }, (lh ++ [c]).length - 1) := rfl
  rw [E, hm]
  refine ⟨rfl, rfl, ?_, ?_, ?_⟩
  · simpa [List.length_set] using hw2
  · intro k hk
    show goGet ((addLeafLoop f dp 0 lh.length c st).1.set dp
      (addLeafLoop f dp 0 lh.length c st).2) k = _
    rw [goGet_set_ne (by omega), hw3 k, hm]
    by_cases hkodd : (lh.length / 2 ^ k) % 2 = 0
    · rw [if_pos ⟨by omega, by omega, hkodd⟩]
      congr 1
      generalize lh.length / 2 ^ k = y at hkodd ⊢
      omega
    · rw [if_neg (by
        intro hcon
        exact hkodd hcon.2.2)]
      rw [hodd0 k (by omega) (by omega) (by omega)]
      congr 1
      generalize lh.length / 2 ^ k = y at hkodd ⊢
      omega
  · show goGet ((addLeafLoop f dp 0 lh.length c st).1.set dp
      (addLeafLoop f dp 0 lh.length c st).2) dp = _
    have hdlt : dp < (addLeafLoop f dp 0 lh.length c st).1.length := by
      rw [hw2]; omega
    rw [goGet_set_self hdlt, hw1, hm]

theorem insertAll_append_one (t : Tree B) (cs : List B) (c : B) :
    insertAll f t (cs ++ [c]) = (addLeaf f (insertAll f t cs) c).1 := by
  simp [insertAll, List.foldl_append]

/-- After any non-empty sequence of `addLeaf` calls on a `NewTree`, the tree
records exactly the inserted leaves and its frontier satisfies `TreeInv`. -/
theorem insertAll_inv (cfg : TreeConfig B)
    (hz : cfg.ZeroHashes.length = cfg.Depth + 1) :
    ∀ cs : List B, cs ≠ [] →
      (insertAll f (NewTree cfg) cs).leafHashes = cs ∧
      (insertAll f (NewTree cfg) cs).depth = cfg.Depth ∧
      TreeInv f cfg.Depth cs (insertAll f (NewTree cfg) cs).subTree := by
  intro cs
  induction cs using List.reverseRecOn with
  | nil => intro h; exact absurd rfl h
  | append_singleton cs c ih =>
      intro _
      rw [insertAll_append_one]
      rcases eq_or_ne cs [] with hnil | hne
      · subst hnil
        simp only [insertAll, List.foldl_nil, List.nil_append]
        exact addLeaf_inv_base f (NewTree cfg) c rfl rfl hz
      · obtain ⟨h1, h2, h3⟩ := ih hne
        exact addLeaf_inv_step f (insertAll f (NewTree cfg) cs) c h1 h2 hne h3

/-- Within capacity, the root the aliased code maintains is the root of the
duplicate-last-node level structure over the inserted leaves. -/
theorem insertAll_getRoot (cfg : TreeConfig B)
    (hz : cfg.ZeroHashes.length = cfg.Depth + 1)
    (cs : List B) (hne : cs ≠ []) (hcap : cs.length ≤ 2 ^ cfg.Depth) :
    getRoot (insertAll f (NewTree cfg) cs) = dupRoot f cfg.Depth cs := by
  obtain ⟨h1, h2, hlen, hk, hd⟩ := insertAll_inv f cfg hz cs hne
  have hlt : cs.length - 1 < 2 ^ cfg.Depth := by
    have : 0 < cs.length := List.length_pos.mpr hne
    omega
  have hdiv : (cs.length - 1) / 2 ^ cfg.Depth = 0 := Nat.div_eq_of_lt hlt
  unfold getRoot dupRoot
  rw [hlen]
  rw [show cfg.Depth + 1 - 1 = cfg.Depth from rfl]
  rw [hd, hdiv]

theorem proofLoop_acc (s : List B) :
    ∀ (fuel i index : Nat) (lvl acc : List B),
      proofLoop f s fuel i index lvl acc
        = acc ++ proofLoop f s fuel i index lvl [] := by
  intro fuel
  induction fuel with
  | zero => intro i index lvl acc; simp [proofLoop]
  | succ fuel ih =>
      intro i index lvl acc
      simp only [proofLoop]
      rw [ih (i + 1) (index / 2) _ (acc ++ _), ih (i + 1) (index / 2) _ ([] ++ _)]
      simp

theorem dupPad_form (l : List B) :
    (if l.length % 2 = 1 then l ++ [goGet l (l.length - 1)] else l) = dupPad l := by
  unfold dupPad
  rw [getLastD_eq_goGet]

/-- The padding values `subTree[k]` that `createMerkleProof` uses are exactly
the last nodes of the odd-width levels: a consequence of `TreeInv`. -/
theorem TreeInv_pad {d : Nat} {cs s : List B} (hinv : TreeInv f d cs s)
    (hne : cs ≠ []) :
    ∀ k, k ≤ d → (levelAt f k cs).length % 2 = 1 →
      goGet s k = goGet (levelAt f k cs) ((levelAt f k cs).length - 1) := by
  obtain ⟨hlenS, hk, hd⟩ := hinv
  intro k hkd hodd
  have hlen := levelAt_length f k cs hne
  rcases eq_or_lt_of_le hkd with heq | hlt
  · subst heq
    rw [hd, hlen]
    simp
  · rw [hk k hlt, hlen]
    have heven : ((cs.length - 1) / 2 ^ k) % 2 = 0 := by
      rw [hlen] at hodd
      generalize (cs.length - 1) / 2 ^ k = y at hodd ⊢
      omega
    congr 1
    generalize (cs.length - 1) / 2 ^ k = y at heven ⊢
    omega

/-- Folding the siblings that `proofLoop` collects reproduces the node of the
duplicate-last-node structure on the leaf's path, level by level. -/
theorem verifyFold_proofLoop (s cs : List B) (hne : cs ≠ []) (d idx : Nat)
    (hidx : idx ≤ cs.length - 1)
    (hpad : ∀ k, k ≤ d → (levelAt f k cs).length % 2 = 1 →
      goGet s k = goGet (levelAt f k cs) ((levelAt f k cs).length - 1)) :
    ∀ (fuel i : Nat), i + fuel = d →
      verifyFold f (goGet (levelAt f i cs) (idx / 2 ^ i)) (idx / 2 ^ i)
        (proofLoop f s fuel i (idx / 2 ^ i) (dupPad (levelAt f i cs)) [])
        = goGet (levelAt f d cs) (idx / 2 ^ d) := by
  intro fuel
  induction fuel with
  | zero =>
      intro i hi
      simp only [proofLoop, verifyFold]
      rw [← hi]
      simp
  | succ fuel ih =>
      intro i hi
      have hlen : (levelAt f i cs).length = (cs.length - 1) / 2 ^ i + 1 :=
        levelAt_length f i cs hne
      have hdiv2 : idx / 2 ^ i / 2 = idx / 2 ^ (i + 1) := by
        rw [Nat.div_div_eq_div_mul, Nat.pow_succ]
      have hQ : idx / 2 ^ i ≤ (cs.length - 1) / 2 ^ i := Nat.div_le_div_right hidx
      have hlev1 : levelAt f (i + 1) cs = dupLevelUp f (levelAt f i cs) := rfl
      -- abstract the two level positions so arithmetic on them is first order
      generalize hq : idx / 2 ^ i = q at hdiv2 hQ ⊢
      generalize hQQ : (cs.length - 1) / 2 ^ i = bigQ at hlen hQ
      have hq_lt : q < (levelAt f i cs).length := by omega
      -- the sibling the loop appends combines with the current node into the
      -- parent node of the duplicate-last-node structure
      have hnext :
          (if q % 2 = 0
            then f [goGet (levelAt f i cs) q, goGet (dupPad (levelAt f i cs)) (q + 1)]
            else f [goGet (dupPad (levelAt f i cs)) (q - 1), goGet (levelAt f i cs) q])
          = goGet (levelAt f (i + 1) cs) (idx / 2 ^ (i + 1)) := by
        rw [hlev1, ← hdiv2]
        by_cases hq2 : q % 2 = 0
        · rw [if_pos hq2]
          rcases eq_or_lt_of_le hQ with heq | hlt
          · -- the node is the last of an odd-width level: sibling is itself
            have hsib : goGet (dupPad (levelAt f i cs)) (q + 1)
                = goGet (levelAt f i cs) q := by
              rw [show q + 1 = (levelAt f i cs).length from by omega,
                dupPad_getD_last (by omega)]
              congr 1
              omega
            rw [hsib, dupLevelUp_getD_dup f (by omega)]
            have he : 2 * (q / 2) = q := by omega
            rw [he]
          · have hsib : goGet (dupPad (levelAt f i cs)) (q + 1)
                = goGet (levelAt f i cs) (q + 1) := dupPad_getD_lt (by omega)
            rw [hsib, dupLevelUp_getD_pair f (by omega)]
            have he : 2 * (q / 2) = q := by omega
            rw [he]
        · rw [if_neg hq2]
          have hsib : goGet (dupPad (levelAt f i cs)) (q - 1)
              = goGet (levelAt f i cs) (q - 1) := dupPad_getD_lt (by omega)
          rw [hsib, dupLevelUp_getD_pair f (by omega)]
          have he1 : 2 * (q / 2) = q - 1 := by omega
          rw [he1, show q - 1 + 1 = q from by omega]
      -- one step of the loop: record the sibling, move to the padded next level
      have hpadded :
          (if (pairHash f (dupPad (levelAt f i cs))).length % 2 = 1
            then pairHash f (dupPad (levelAt f i cs)) ++ [goGet s (i + 1)]
            else pairHash f (dupPad (levelAt f i cs)))
          = dupPad (levelAt f (i + 1) cs) := by
        have hnl : pairHash f (dupPad (levelAt f i cs)) = levelAt f (i + 1) cs := rfl
        rw [hnl]
        by_cases hodd : (levelAt f (i + 1) cs).length % 2 = 1
        · rw [if_pos hodd, hpad (i + 1) (by omega) hodd]
          unfold dupPad
          rw [if_pos hodd, getLastD_eq_goGet]
        · rw [if_neg hodd]
          unfold dupPad
          rw [if_neg hodd]
      have hstep : proofLoop f s (fuel + 1) i q (dupPad (levelAt f i cs)) []
          = (if q % 2 = 0 then goGet (dupPad (levelAt f i cs)) (q + 1)
              else goGet (dupPad (levelAt f i cs)) (q - 1))
            :: proofLoop f s fuel (i + 1) (q / 2) (dupPad (levelAt f (i + 1) cs)) [] := by
        simp only [proofLoop]
        rw [hpadded]
        rw [proofLoop_acc]
        simp
      rw [hstep]
      simp only [verifyFold]
      have hihq := ih (i + 1) (by omega)
      rw [← hdiv2] at hihq
      by_cases hq2 : q % 2 = 0
      · simp only [if_pos hq2]
        simp only [if_pos hq2] at hnext
        rw [hnext, ← hdiv2]
        exact hihq
      · simp only [if_neg hq2]
        simp only [if_neg hq2] at hnext
        rw [hnext, ← hdiv2]
        exact hihq


end TreeLemmas

/-! ## Lemmas: `uint64` wrap-around and field embeddings -/

theorem two_pow_64_lt_P : 2 ^ 64 < P := by
  unfold P
  norm_num

/-- The double `uint64` subtraction of `SendWithdrawal` under overdraw: when
`w + fee` exceeds `A` (all below `2^64`), the computed change is the wrapped
value `(A + 2^65 - (w + fee)) mod 2^64`. -/
theorem goSub64_wrap {A w fee : Nat} (hA : A < 2 ^ 64) (hw : w < 2 ^ 64)
    (hf : fee < 2 ^ 64) (hover : A < w + fee) :
    goSub64 (goSub64 A w) fee = (A + 2 ^ 65 - (w + fee)) % 2 ^ 64 := by
  unfold goSub64
  omega

theorem val_cast_lt_64 {a : Nat} (h : a < 2 ^ 64) : ((a : F)).val = a :=
  ZMod.val_cast_of_lt (lt_trans h two_pow_64_lt_P)

/-! ## Claim C1 -/

/-- C1 (code bug): the claim says that after any sequence of `addLeaf` calls
the root returned by `getRoot` equals the full Merkle root of the inserted
leaf hashes padded on the right with `zeroHashes[0] = H(0)` up to `2^D`
leaves.  The code violates this: `NewTree` aliases `subTree` and `zeroHashes`
to one slice, so `addLeaf`'s frontier write is read back in place of the zero
hash, and after inserting the single leaf `c = H(1)` into a fresh depth-2 tree
the root is `H(H(c,c), H(c,c))` — the node duplicated with *itself* at every
level — instead of the specified `H(H(c, z0), H(z0, z0))`. -/
theorem addLeaf_root_defies_zero_padding :
    getRoot (insertAll freeHash (NewTree cfgD2) [.h1 (.raw 1)]) =
      freeHash [freeHash [HashVal.h1 (.raw 1), HashVal.h1 (.raw 1)],
        freeHash [HashVal.h1 (.raw 1), HashVal.h1 (.raw 1)]] ∧
    getRoot (insertAll freeHash (NewTree cfgD2) [.h1 (.raw 1)]) ≠
      specPaddedRoot freeHash 2 (zeroHashAt freeHash (.raw 0) 0) [.h1 (.raw 1)] := by
  decide

/-! ## Claim C2 -/

/-- C2 counterexample: the claim asserts the proof/verify round-trip for
*every* tree obtained by a sequence of `addLeaf` calls, but `addLeaf` grows a
tree past its capacity without rejection (claim C5), and there the round-trip
fails.  On the depth-1 tree holding three leaves, `createMerkleProof` for
inserted leaf 0 (pre-image `raw 1`) succeeds, yet the returned path does not
verify against `getRoot`: the frontier root is `H(H(c3), H(c3))`, which the
two-level fold from leaf 0 cannot reproduce. -/
theorem createMerkleProof_overfull_roundtrip_fails :
    treeOver3.leafHashes.length = 3 ∧
    2 ^ treeOver3.depth = 2 ∧
    (createMerkleProof freeHash treeOver3 (.raw 1) 0).toOption.map
        (fun path => verify freeHash treeOver3 0 path (getRoot treeOver3))
      = some false := by
  decide

/-- C2 (amended): on a tree built by any sequence of `addLeaf` calls within
capacity (`cs.length ≤ 2^depth`) on a well-formed `NewTree`, the proof
returned by `createMerkleProof` for any inserted leaf — whose element 0 is the
leaf's pre-image `v`, with `H(v)` the stored leaf hash — verifies via `verify`
against `getRoot`.  The loop padding with `subTree` values and the aliased
frontier are self-consistent: both compute the duplicate-last-node level
structure. -/
theorem createMerkleProof_verifies_against_getRoot
    {B : Type} [DecidableEq B] [Inhabited B] (f : List B → B)
    (cfg : TreeConfig B) (hz : cfg.ZeroHashes.length = cfg.Depth + 1)
    (cs : List B) (hcap : cs.length ≤ 2 ^ cfg.Depth)
    (i : Nat) (v : B) (hi : i < cs.length) (hv : goGet cs i = f [v]) :
    ∃ path,
      createMerkleProof f (insertAll f (NewTree cfg) cs) v i = .ok path ∧
      verify f (insertAll f (NewTree cfg) cs) i path
        (getRoot (insertAll f (NewTree cfg) cs)) = true := by
  have hne : cs ≠ [] := by
    intro h
    subst h
    simp at hi
  obtain ⟨hlh, hdep, hinv⟩ := insertAll_inv f cfg hz cs hne
  have hroot := insertAll_getRoot f cfg hz cs hne hcap
  have hpad := TreeInv_pad f hinv hne
  have hlvl0 :
      (if (insertAll f (NewTree cfg) cs).leafHashes.length % 2 = 1
        then (insertAll f (NewTree cfg) cs).leafHashes
          ++ [goGet (insertAll f (NewTree cfg) cs).subTree 0]
        else (insertAll f (NewTree cfg) cs).leafHashes) = dupPad cs := by
    rw [hlh]
    by_cases hodd : cs.length % 2 = 1
    · rw [if_pos hodd]
      have h0 : (levelAt f 0 cs).length % 2 = 1 := hodd
      rw [hpad 0 (by omega) h0]
      unfold dupPad
      rw [if_pos hodd, getLastD_eq_goGet]
      rfl
    · rw [if_neg hodd]
      unfold dupPad
      rw [if_neg hodd]
  have hmk : createMerkleProof f (insertAll f (NewTree cfg) cs) v i
      = .ok (proofLoop f (insertAll f (NewTree cfg) cs).subTree
          (insertAll f (NewTree cfg) cs).depth 0 i (dupPad cs) [v]) := by
    unfold createMerkleProof
    rw [dif_pos (by rw [hlh]; exact hi)]
    rw [if_neg (by rw [hlh, hv]; exact fun hc => hc rfl)]
    rw [if_neg (by rw [hlh]; omega)]
    show Except.ok (proofLoop f (insertAll f (NewTree cfg) cs).subTree
      (insertAll f (NewTree cfg) cs).depth 0 i
      (if (insertAll f (NewTree cfg) cs).leafHashes.length % 2 = 1
        then (insertAll f (NewTree cfg) cs).leafHashes
          ++ [goGet (insertAll f (NewTree cfg) cs).subTree 0]
        else (insertAll f (NewTree cfg) cs).leafHashes) [v]) = _
    rw [hlvl0]
  rw [hmk, proofLoop_acc]
  refine ⟨_, rfl, ?_⟩
  have hfold := verifyFold_proofLoop f (insertAll f (NewTree cfg) cs).subTree cs
    hne cfg.Depth i (by omega) hpad cfg.Depth 0 (by omega)
  simp only [pow_zero, Nat.div_one] at hfold
  have hentry : f [v] = goGet (levelAt f 0 cs) i := by
    rw [← hv]
    rfl
  have htop : i / 2 ^ cfg.Depth = 0 := Nat.div_eq_of_lt (by omega)
  rw [htop] at hfold
  have hlvl0cs : dupPad (levelAt f 0 cs) = dupPad cs := rfl
  rw [hlvl0cs] at hfold
  show decide (verifyFold f (f [v]) i
    (proofLoop f (insertAll f (NewTree cfg) cs).subTree
      (insertAll f (NewTree cfg) cs).depth 0 i (dupPad cs) [])
    = getRoot (insertAll f (NewTree cfg) cs)) = true
  rw [hdep, hentry, hfold, hroot]
  unfold dupRoot
  simp

/-- Witness for C2 at a concrete input: three leaves in a depth-2 tree over
the free hash algebra, proving and verifying leaf index 1. -/
theorem createMerkleProof_verifies_witness :
    ∃ path,
      createMerkleProof freeHash
        (insertAll freeHash (NewTree cfgD2)
          [.h1 (.raw 1), .h1 (.raw 2), .h1 (.raw 3)]) (.raw 2) 1 = .ok path ∧
      verify freeHash
        (insertAll freeHash (NewTree cfgD2)
          [.h1 (.raw 1), .h1 (.raw 2), .h1 (.raw 3)]) 1 path
        (getRoot (insertAll freeHash (NewTree cfgD2)
          [.h1 (.raw 1), .h1 (.raw 2), .h1 (.raw 3)])) = true :=
  createMerkleProof_verifies_against_getRoot freeHash cfgD2 (by decide)
    [.h1 (.raw 1), .h1 (.raw 2), .h1 (.raw 3)] (by decide) 1 (.raw 2)
    (by decide) (by decide)

/-! ## Claim C5 -/

/-- C5 counterexample: the claim says appending to a full tree
(`n = 2^D` leaves) is rejected and the leaf is not inserted.  On a full
depth-1 tree (2 = 2^1 leaves), `addLeaf` inserts a third leaf and returns
index 2: `leafHashes` silently grows past `2^D`. -/
theorem addLeaf_full_tree_counterexample :
    (insertAll freeHash (NewTree cfgD1) [.h1 (.raw 1), .h1 (.raw 2)]).leafHashes.length
        = 2 ^ (NewTree cfgD1).depth ∧
    (addLeaf freeHash (insertAll freeHash (NewTree cfgD1) [.h1 (.raw 1), .h1 (.raw 2)])
        (.h1 (.raw 3))).2 = 2 ∧
    (addLeaf freeHash (insertAll freeHash (NewTree cfgD1) [.h1 (.raw 1), .h1 (.raw 2)])
        (.h1 (.raw 3))).1.leafHashes.length = 3 := by
  decide

/-- C5 amended: `addLeaf` performs no capacity check and has no failure path
at all — for every tree, full or not, it appends the leaf to `leafHashes` and
returns the new index. -/
theorem addLeaf_always_inserts {B : Type} [DecidableEq B] [Inhabited B]
    (f : List B → B) (t : Tree B) (c : B) :
    (addLeaf f t c).1.leafHashes = t.leafHashes ++ [c] ∧
    (addLeaf f t c).2 = t.leafHashes.length := by
  constructor
  · rfl
  · show (t.leafHashes ++ [c]).length - 1 = t.leafHashes.length
    simp

/-! ## Claim C9 -/

/-- C9 (confirmed): for every index at or beyond the number of inserted
leaves, `createMerkleProof` hits the out-of-range slice access
`t.leafHashes[index]` — a Go runtime panic — because that read is evaluated
before the bounds check; and the explicit `"index out of range"` error branch
is unreachable on every input. -/
theorem createMerkleProof_oob_panics {B : Type} [DecidableEq B] [Inhabited B]
    (f : List B → B) (t : Tree B) (v : B) (index : Nat) :
    (t.leafHashes.length ≤ index →
      createMerkleProof f t v index = .error .runtimeFault) ∧
    createMerkleProof f t v index ≠ .error (.goError "index out of range") := by
  constructor
  · intro h
    unfold createMerkleProof
    rw [dif_neg (by omega)]
  · intro hcon
    unfold createMerkleProof at hcon
    by_cases h : index < t.leafHashes.length
    · rw [dif_pos h] at hcon
      by_cases h2 : goGet t.leafHashes index ≠ f [v]
      · rw [if_pos h2] at hcon
        have := Except.error.inj hcon
        exact absurd this (by decide)
      · rw [if_neg h2, if_neg (by omega)] at hcon
        exact Except.noConfusion hcon
    · rw [dif_neg h] at hcon
      have := Except.error.inj hcon
      exact absurd this (by decide)

/-- Witness for C9: probing index 5 of a fresh empty tree panics (and is not
the `"index out of range"` error). -/
theorem createMerkleProof_oob_panics_witness :
    createMerkleProof freeHash (NewTree cfgD1) (.raw 9) 5 = .error .runtimeFault ∧
    createMerkleProof freeHash (NewTree cfgD1) (.raw 9) 5
      ≠ .error (.goError "index out of range") :=
  ⟨(createMerkleProof_oob_panics freeHash (NewTree cfgD1) (.raw 9) 5).1 (by decide),
    (createMerkleProof_oob_panics freeHash (NewTree cfgD1) (.raw 9) 5).2⟩

/-! ## Claim C7 -/

/-- C7 (confirmed): every witness of the withdrawal circuit satisfies the
balance constraints — with `consumed = WithdrawalAmount + SpentAmount` (a
field addition), the comparison gadget's value order gives
`consumed ≤ SpendableAmount` and `Fee ≤ SpendableAmount − consumed`, and
`UnspentAmount = SpendableAmount − consumed − Fee`; they are the final three
constraints `Define` registers (`src/unnamed/part_005:122-130`, identically
`src/unnamed/part_004:100-108`). -/
theorem withdrawal_circuit_enforces_balance {Sig : Type} (mimc : List F → F)
    (eddsaVerify : Sig → F → F × F → Bool) (c : Circuits.WithdrawalCircuit Sig)
    (h : Circuits.WithdrawalCircuit.Define mimc eddsaVerify c) :
    cmpLE (c.WithdrawalAmount + c.SpentAmount) c.SpendableAmount ∧
    cmpLE c.Fee (c.SpendableAmount - (c.WithdrawalAmount + c.SpentAmount)) ∧
    c.UnspentAmount
      = c.SpendableAmount - (c.WithdrawalAmount + c.SpentAmount) - c.Fee := by
  obtain ⟨-, -, -, -, -, -, -, -, h1, h2, h3⟩ := h
  exact ⟨h1, h2, h3⟩

/-- Witness for C7 at a concrete satisfying assignment. -/
theorem withdrawal_circuit_enforces_balance_witness :
    cmpLE (withdrawalFixture.WithdrawalAmount + withdrawalFixture.SpentAmount)
      withdrawalFixture.SpendableAmount ∧
    cmpLE withdrawalFixture.Fee
      (withdrawalFixture.SpendableAmount
        - (withdrawalFixture.WithdrawalAmount + withdrawalFixture.SpentAmount)) ∧
    withdrawalFixture.UnspentAmount
      = withdrawalFixture.SpendableAmount
        - (withdrawalFixture.WithdrawalAmount + withdrawalFixture.SpentAmount)
        - withdrawalFixture.Fee :=
  withdrawal_circuit_enforces_balance zeroMimc trueEddsa withdrawalFixture (by decide)

/-! ## Claim C8 -/

/-- C8 counterexample: the claim says the deposit circuit's public inputs are
exactly `amount`, `commitment`, `outputPub.x`, `outputPub.y`.  In the latest
variant (`src/circuits/deposit_circuit.go:69-88`, the one the spec's own
resolution note (b) selects), the output public key carries no
`gnark:",public"` tag: the public inputs are exactly `Amount` and
`Commitment`. -/
theorem deposit_public_inputs_counterexample :
    Circuits.DepositCircuit.publicInputFields
        ≠ ["Amount", "Commitment", "OutputX", "OutputY"] ∧
    "OutputX" ∉ Circuits.DepositCircuit.publicInputFields ∧
    "OutputY" ∉ Circuits.DepositCircuit.publicInputFields ∧
    Circuits.DepositCircuitOutputPublicVariant.publicInputFields
        = ["Amount", "Commitment", "OutputX", "OutputY"] := by
  decide

/-- C8 amended: the deposit circuit's public inputs are exactly `amount` and
`commitment` (with `outputPub.x`, `outputPub.y`, `k`, `r` private), and a
witness satisfies it iff `commitment = H(H(amount, k, r, outputPub.x,
outputPub.y))`. -/
theorem deposit_circuit_amended (mimc : List F → F) (c : Circuits.DepositCircuit) :
    Circuits.DepositCircuit.publicInputFields = ["Amount", "Commitment"] ∧
    (Circuits.DepositCircuit.Define mimc c ↔
      c.Commitment = mimc [mimc [c.Amount, c.K, c.R, c.OutputX, c.OutputY]]) := by
  refine ⟨rfl, ?_⟩
  unfold Circuits.DepositCircuit.Define verifyHashCommitment
  rw [show (2 : Nat) - 1 = 1 from rfl, Function.iterate_one]

/-! ## Claim C3 -/

/-- C3 counterexample: the claim says the fee-carrying transaction of a
withdrawal group carries `minTxnFee × withdrawalMultiplier + nullifierMbr`
(= 195300).  With the default fee, the composed group's fees are
`[0, 180000, 0, 0, 0, 0, 0, 0]`: the fee-paying no-op carries
`fee − nullifierMbr = 180000`, and no transaction carries 195300. -/
theorem withdrawal_group_fee_counterexample :
    (withdrawalGroup (resolvedWithdrawalFee 0)).map GroupTxn.fee
        = [0, 180000, 0, 0, 0, 0, 0, 0] ∧
    config.WithdrawalMinFeeMultiplier * MinTxnFee + config.NullifierMbr = 195300 ∧
    ∀ txn ∈ withdrawalGroup (resolvedWithdrawalFee 0),
      txn.fee ≠ config.WithdrawalMinFeeMultiplier * MinTxnFee + config.NullifierMbr := by
  decide

/-- C3 amended: in every composed group exactly one transaction carries a
non-zero flat fee — `minTxnFee × depositMultiplier` for a deposit group, and
`fee − nullifierMbr` for a withdrawal group, which at the default fee equals
`minTxnFee × withdrawalMultiplier` (the `nullifierMbr` part of the configured
fee funds the nullifier box MBR, not a transaction fee); every other
transaction carries zero fee. -/
theorem group_fee_discipline :
    ((depositGroup.filter (fun txn => txn.fee != 0)).map GroupTxn.fee
        = [MinTxnFee * config.DepositMinFeeMultiplier]) ∧
    (((withdrawalGroup (resolvedWithdrawalFee 0)).filter
        (fun txn => txn.fee != 0)).map GroupTxn.fee
        = [config.WithdrawalMinFeeMultiplier * MinTxnFee]) ∧
    (∀ optsFee : Nat, (withdrawalGroup (resolvedWithdrawalFee optsFee)).map GroupTxn.fee
        = 0 :: goSub64 (resolvedWithdrawalFee optsFee) config.NullifierMbr
            :: List.replicate (config.VerifierTopLevelTxnNeeded - 2) 0) := by
  refine ⟨by decide, by decide, ?_⟩
  intro optsFee
  simp [withdrawalGroup, config.VerifierTopLevelTxnNeeded, List.replicate]

/-! ## Claim C4 -/

/-- C4 counterexample: the claim says that when the simulated consumed opcode
budget exceeds the added budget the request is rejected and the group not
submitted.  With ledger responses reporting consumed 900 against added 600,
`SendDeposit` still executes the group and returns success: the budgets are
only printed. -/
theorem sendDeposit_submits_despite_overrun :
    algodOverrun.simulate = Except.ok ⟨900, 600⟩ ∧
    (600 : Nat) < 900 ∧
    (SendDeposit freeHash u64raw kDom rDom constF zeroMimc frontend0 algodOverrun
      (.raw 7) 1000 testPub testPriv).isOk = true :=
  ⟨rfl, by decide, by rfl⟩

/-- C4 amended: both `SendDeposit` and `SendWithdrawal` simulate the group
before submitting and abort if the simulation call itself errors, but the
consumed and added opcode budgets it reports are only printed, never compared:
the outcome is identical for any two successful simulation results. -/
theorem simulate_budgets_not_compared
    {B : Type} [DecidableEq B] [Inhabited B] {Sig : Type}
    (hashFunc : List B → B) (u64b : Nat → B) (kD rD : B)
    (toF : B → F) (mimc : List F → F) (ev : Sig → F → F × F → Bool)
    (fr : Frontend B) (algod : AlgodResponses B) (fromAddr : B) (amount : Nat)
    (pub : EddsaPublicKey B) (priv : EddsaPrivateKey B Sig)
    (opts : WithdrawalOpts B) (s1 s2 : SimResult) :
    SendDeposit hashFunc u64b kD rD toF mimc fr
        { algod with simulate := .ok s1 } fromAddr amount pub priv
      = SendDeposit hashFunc u64b kD rD toF mimc fr
        { algod with simulate := .ok s2 } fromAddr amount pub priv ∧
    SendWithdrawal hashFunc u64b kD rD toF mimc ev fr
        { algod with simulate := .ok s1 } opts priv pub
      = SendWithdrawal hashFunc u64b kD rD toF mimc ev fr
        { algod with simulate := .ok s2 } opts priv pub :=
  ⟨rfl, rfl⟩

/-! ## Claim C6 -/

/-- C6 counterexample: the claim says that after every confirmed submission —
`SendWithdrawal` included — the returned root is compared with the on-chain
`root` key, a mismatch is fatal, and the commitment is not appended.  With
ledger responses whose execution returns root `raw 99` while the on-chain key
holds `raw 77`, `SendWithdrawal` succeeds and appends the change commitment to
the local mirror (its leaf count grows from 1 to 2): the returned root is
discarded. -/
theorem sendWithdrawal_ignores_returned_root :
    algodMismatch.executeResult = Except.ok (1, HashVal.raw 99) ∧
    algodMismatch.rootOnchain = Except.ok (HashVal.raw 77) ∧
    HashVal.raw 99 ≠ HashVal.raw 77 ∧
    ((SendWithdrawal freeHash u64raw kDom rDom constF zeroMimc trueEddsa frontendW
        algodMismatch optsW testPriv testPub).toOption.map
      (fun r => r.1.Tree.leafHashes.length)) = some 2 :=
  ⟨rfl, rfl, by decide, by rfl⟩

/-- C6 amended: only `SendDeposit` reconciles the returned root with the
on-chain `root` key — on mismatch it fails with `"root mismatch"` before
appending.  `SendWithdrawal` discards the returned root and appends the change
commitment to the local mirror with no root comparison, mismatch or not. -/
theorem root_reconciliation_only_on_deposit
    {B : Type} [DecidableEq B] [Inhabited B] {Sig : Type}
    (hashFunc : List B → B) (u64b : Nat → B) (kD rD : B)
    (toF : B → F) (mimc : List F → F) (ev : Sig → F → F × F → Bool)
    (fr : Frontend B) (algod : AlgodResponses B)
    (idx : Nat) (root1 root2 : B)
    (hexec : algod.executeResult = .ok (idx, root1))
    (hroot : algod.rootOnchain = .ok root2)
    (hne : root1 ≠ root2)
    (hsp : algod.suggestedParams = .ok ())
    (hsim : ∃ s, algod.simulate = .ok s) :
    (∀ (fromAddr : B) (amount : Nat) (pub : EddsaPublicKey B)
      (priv : EddsaPrivateKey B Sig),
      Circuits.DepositCircuit.Define mimc
        (depositAssignment hashFunc u64b kD rD toF amount pub priv) →
      SendDeposit hashFunc u64b kD rD toF mimc fr algod fromAddr amount pub priv
        = .error "root mismatch") ∧
    (∀ (opts : WithdrawalOpts B) (priv : EddsaPrivateKey B Sig)
      (pub : EddsaPublicKey B) (mp : List B),
      opts.fromNote.insertedIndex ≠ -1 →
      createMerkleProof hashFunc fr.Tree
        (MakeLeafValue hashFunc u64b opts.fromNote)
        opts.fromNote.insertedIndex.toNat = .ok mp →
      Circuits.WithdrawalCircuitLegacy.Define mimc ev
        (withdrawalAssignment hashFunc u64b kD rD toF opts priv pub mp root2) →
      ∃ fr2 w,
        SendWithdrawal hashFunc u64b kD rD toF mimc ev fr algod opts priv pub
          = .ok (fr2, w) ∧
        fr2.Tree.leafHashes = fr.Tree.leafHashes ++ [w.Note.commitment]) := by
  obtain ⟨sp, sim, ex, ro⟩ := algod
  obtain ⟨s, hs⟩ := hsim
  simp only [] at hexec hroot hsp hs
  subst hexec hroot hsp hs
  constructor
  · intro fromAddr amount pub priv hdef
    unfold SendDeposit
    rw [if_pos hdef]
    simp only []
    rw [if_pos hne]
  · intro opts priv pub mp hidx hmp hdef
    unfold SendWithdrawal
    try simp only []
    rw [if_neg hidx]
    try simp only []
    rw [hmp]
    try simp only []
    rw [if_pos hdef]
    try simp only []
    exact ⟨_, _, rfl, rfl⟩

/-- Witness for C6's amended statement at the concrete mismatch fixtures. -/
theorem root_reconciliation_only_on_deposit_witness :
    SendDeposit freeHash u64raw kDom rDom constF zeroMimc frontendW algodMismatch
        (.raw 7) 1000 testPub testPriv = .error "root mismatch" ∧
    (∃ fr2 w,
      SendWithdrawal freeHash u64raw kDom rDom constF zeroMimc trueEddsa frontendW
          algodMismatch optsW testPriv testPub = .ok (fr2, w) ∧
      fr2.Tree.leafHashes = frontendW.Tree.leafHashes ++ [w.Note.commitment]) :=
  ⟨(root_reconciliation_only_on_deposit freeHash u64raw kDom rDom constF zeroMimc
      trueEddsa frontendW algodMismatch 1 (.raw 99) (.raw 77) rfl rfl (by decide)
      rfl ⟨⟨100, 5600⟩, rfl⟩).1 (.raw 7) 1000 testPub testPriv (by decide),
    (root_reconciliation_only_on_deposit freeHash u64raw kDom rDom constF zeroMimc
      trueEddsa frontendW algodMismatch 1 (.raw 99) (.raw 77) rfl rfl (by decide)
      rfl ⟨⟨100, 5600⟩, rfl⟩).2 optsW testPriv testPub
      [MakeLeafValue freeHash u64raw fromNote0, fromNote0.commitment]
      (by decide) (by rfl) (by decide)⟩

/-! ## Claim C10 -/

/-- C10 (confirmed): `SendWithdrawal` computes the change as
`fromNote.Amount - withdrawalAmount - fee` in `uint64` arithmetic with no
underflow guard: whenever `withdrawalAmount + fee > fromNote.Amount` the
subtraction wraps modulo `2^64` (second conjunct), and — with the note
inserted and the Merkle proof and root read succeeding — the request is
rejected only at proof generation, where the circuit's balance constraints
fail (`"failed to verify withdrawal proof"`), not by any explicit amount
check. -/
theorem sendWithdrawal_underflow_wraps
    {B : Type} [DecidableEq B] [Inhabited B] {Sig : Type}
    (hashFunc : List B → B) (u64b : Nat → B) (kD rD : B)
    (toF : B → F) (mimc : List F → F) (ev : Sig → F → F × F → Bool)
    (fr : Frontend B) (algod : AlgodResponses B)
    (opts : WithdrawalOpts B) (priv : EddsaPrivateKey B Sig)
    (pub : EddsaPublicKey B) (mp : List B) (root2 : B)
    (hA : opts.fromNote.Amount < 2 ^ 64)
    (hw : opts.amount < 2 ^ 64)
    (hf : resolvedWithdrawalFee opts.fee < 2 ^ 64)
    (hover : opts.fromNote.Amount < opts.amount + resolvedWithdrawalFee opts.fee)
    (hidx : opts.fromNote.insertedIndex ≠ -1)
    (hmp : createMerkleProof hashFunc fr.Tree
      (MakeLeafValue hashFunc u64b opts.fromNote)
      opts.fromNote.insertedIndex.toNat = .ok mp)
    (hroot : algod.rootOnchain = .ok root2) :
    SendWithdrawal hashFunc u64b kD rD toF mimc ev fr algod opts priv pub
      = .error "failed to verify withdrawal proof" ∧
    goSub64 (goSub64 opts.fromNote.Amount opts.amount) (resolvedWithdrawalFee opts.fee)
      = (opts.fromNote.Amount + 2 ^ 65
          - (opts.amount + resolvedWithdrawalFee opts.fee)) % 2 ^ 64 := by
  have hnodef : ¬ Circuits.WithdrawalCircuitLegacy.Define mimc ev
      (withdrawalAssignment hashFunc u64b kD rD toF opts priv pub mp root2) := by
    intro hdef
    obtain ⟨-, -, -, -, -, h6, h7, -⟩ := hdef
    unfold cmpLE at h6 h7
    simp only [withdrawalAssignment] at h6 h7
    rw [val_cast_lt_64 hw, val_cast_lt_64 hA] at h6
    by_cases hcase : opts.amount ≤ opts.fromNote.Amount
    · have hsub : ((opts.fromNote.Amount : F) - (opts.amount : F))
          = ((opts.fromNote.Amount - opts.amount : Nat) : F) := by
        rw [Nat.cast_sub hcase]
      rw [hsub, val_cast_lt_64 hf,
        val_cast_lt_64 (show opts.fromNote.Amount - opts.amount < 2 ^ 64 from
          by omega)] at h7
      omega
    · omega
  constructor
  · obtain ⟨sp, sim, ex, ro⟩ := algod
    simp only [] at hroot
    subst hroot
    unfold SendWithdrawal
    try simp only []
    rw [if_neg hidx]
    try simp only []
    rw [hmp]
    try simp only []
    rw [if_neg hnodef]
  · exact goSub64_wrap hA hw hf hover

/-- Witness for C10: withdrawing 20 with fee 3 from a 10-unit note; the change
wraps to `2^64 - 13` and the pipeline fails at proof generation. -/
theorem sendWithdrawal_underflow_wraps_witness :
    SendWithdrawal freeHash u64raw kDom rDom constF zeroMimc trueEddsa frontendW
        algodMismatch optsOverdraw testPriv testPub
      = .error "failed to verify withdrawal proof" ∧
    goSub64 (goSub64 optsOverdraw.fromNote.Amount optsOverdraw.amount)
        (resolvedWithdrawalFee optsOverdraw.fee)
      = (optsOverdraw.fromNote.Amount + 2 ^ 65
          - (optsOverdraw.amount + resolvedWithdrawalFee optsOverdraw.fee)) % 2 ^ 64 :=
  sendWithdrawal_underflow_wraps freeHash u64raw kDom rDom constF zeroMimc trueEddsa
    frontendW algodMismatch optsOverdraw testPriv testPub
    [MakeLeafValue freeHash u64raw fromNote0, fromNote0.commitment] (.raw 77)
    (by decide) (by decide) (by decide) (by decide) (by decide) (by rfl) rfl

end Mithras
